import Mathlib

/-!
Verification of the page-management core of the bustub-based repository:
the extendible hash table (`src/container/hash/extendible_hash_table.cpp`)
and the buffer pool manager (`src/buffer/buffer_pool_manager_instance.cpp`).

Shallow embedding: the C++ state is modelled by explicit Lean structures.
Bucket objects are shared between directory slots in the C++ code via
`shared_ptr`; we model this with an arena (`buckets : List (Bucket K V)`)
and a directory of arena indices (`dir : List Nat`), so that pointer
equality in the source becomes index equality here, and mutation through
one alias is visible through all of them.  `std::hash` is an arbitrary
function `hash : K → Nat` threaded through every operation; the C++
`hash & ((1 << depth) - 1)` becomes `hash % 2 ^ depth`.
-/

namespace BusTub

variable {K V : Type} [DecidableEq K]

/-- One hash bucket: `Bucket(size_t array_size, int depth)` with its
`std::list<std::pair<K, V>> list_`. -/
structure Bucket (K V : Type) where
  size : Nat
  depth : Nat
  list : List (K × V)
deriving DecidableEq

/-- Linear scan of an association list for a key, as done by
`Bucket::Find`'s loop: first matching pair wins. -/
def findVal (k : K) : List (K × V) → Option V
  | [] => none
  | p :: rest => if p.1 = k then some p.2 else findVal k rest

/-- Overwrite the value of the first pair whose key matches, leaving
everything else in place (`it->second = value` in `Bucket::Insert` and in
the overwrite loop of `ExtendibleHashTable::Insert`). -/
def overwriteFirst (k : K) (v : V) : List (K × V) → List (K × V)
  | [] => []
  | p :: rest => if p.1 = k then (p.1, v) :: rest else p :: overwriteFirst k v rest

/-- Remove the first pair whose key matches and report whether one was
found (`Bucket::Remove`). -/
def removeFirst (k : K) : List (K × V) → Bool × List (K × V)
  | [] => (false, [])
  | p :: rest =>
    if p.1 = k then (true, rest)
    else
      let r := removeFirst k rest
      (r.1, p :: r.2)

/-- Modelled from the spec: `Bucket::IsFull` lives in the header
`extendible_hash_table.h`, which is not under `src/`; per the spec a
bucket holds "up to `bucket_size` key-value pairs", so it is full exactly
when its list has reached `size`. -/
def Bucket.isFull (b : Bucket K V) : Bool := b.size ≤ b.list.length

/-- `Bucket::Find`. -/
def Bucket.find (k : K) (b : Bucket K V) : Option V := findVal k b.list

/-- `Bucket::Remove`. -/
def Bucket.remove (k : K) (b : Bucket K V) : Bool × Bucket K V :=
  let r := removeFirst k b.list
  (r.1, { b with list := r.2 })

/-- `Bucket::Insert`: overwrite if the key is present, fail if full,
otherwise append at the back. -/
def Bucket.insert (k : K) (v : V) (b : Bucket K V) : Bool × Bucket K V :=
  if (findVal k b.list).isSome then (true, { b with list := overwriteFirst k v b.list })
  else if b.isFull then (false, b)
  else (true, { b with list := b.list ++ [(k, v)] })

/-- The extendible hash table state: `global_depth_`, `bucket_size_`,
`num_buckets_`, the bucket arena (modelling the heap of `shared_ptr`
buckets) and the directory `dir_` of arena indices. -/
structure ExtendibleHashTable (K V : Type) where
  globalDepth : Nat
  bucketSize : Nat
  numBuckets : Nat
  buckets : List (Bucket K V)
  dir : List Nat
deriving DecidableEq

namespace ExtendibleHashTable

/-- The constructor `ExtendibleHashTable(bucket_size)`: depth 0, one
empty bucket, directory of length 1 pointing at it. -/
def new (K V : Type) (bucketSize : Nat) : ExtendibleHashTable K V :=
  { globalDepth := 0, bucketSize := bucketSize, numBuckets := 1,
    buckets := [{ size := bucketSize, depth := 0, list := [] }], dir := [0] }

/-- `IndexOf`: `hash(key) & ((1 << global_depth_) - 1)`. -/
def IndexOf (hash : K → Nat) (t : ExtendibleHashTable K V) (k : K) : Nat :=
  hash k % 2 ^ t.globalDepth

/-- Directory slot `i` (`dir_[i]`), as an arena index. -/
def dirAt (t : ExtendibleHashTable K V) (i : Nat) : Nat := t.dir.getD i 0

/-- The bucket stored at arena index `bid`. -/
def bAt (t : ExtendibleHashTable K V) (bid : Nat) : Bucket K V :=
  t.buckets.getD bid { size := 0, depth := 0, list := [] }

/-- `GetGlobalDepthInternal`. -/
def GetGlobalDepth (t : ExtendibleHashTable K V) : Nat := t.globalDepth

/-- `GetLocalDepthInternal`: `dir_[dir_index]->GetDepth()`. -/
def GetLocalDepth (t : ExtendibleHashTable K V) (dirIndex : Nat) : Nat :=
  (t.bAt (t.dirAt dirIndex)).depth

/-- `GetNumBucketsInternal`. -/
def GetNumBuckets (t : ExtendibleHashTable K V) : Nat := t.numBuckets

/-- `ExtendibleHashTable::Find`: dispatch to the bucket at the key's slot. -/
def Find (hash : K → Nat) (t : ExtendibleHashTable K V) (k : K) : Option V :=
  (t.bAt (t.dirAt (IndexOf hash t k))).find k

/-- `ExtendibleHashTable::Remove`: dispatch to the bucket at the key's
slot; the mutation is visible through every directory slot sharing the
bucket, hence the arena update. -/
def Remove (hash : K → Nat) (t : ExtendibleHashTable K V) (k : K) :
    Bool × ExtendibleHashTable K V :=
  let bid := t.dirAt (IndexOf hash t k)
  let r := (t.bAt bid).remove k
  (r.1, { t with buckets := t.buckets.set bid r.2 })

/-- The redistribution loop of `Insert`'s split: walk the items of the
overflowing bucket in order and `Bucket::Insert` each into `bucket_1` if
bit `d` of its hash is set, else into `bucket_0`. -/
def redistGo (hash : K → Nat) (d : Nat) :
    List (K × V) → Bucket K V → Bucket K V → Bucket K V × Bucket K V
  | [], b0, b1 => (b0, b1)
  | p :: rest, b0, b1 =>
    if Nat.testBit (hash p.1) d then redistGo hash d rest b0 (Bucket.insert p.1 p.2 b1).2
    else redistGo hash d rest (Bucket.insert p.1 p.2 b0).2 b1

/-- Split an overflowing bucket's items into the two fresh buckets of
depth `d + 1` (`bucket_0`, `bucket_1` in the source). -/
def redistribute (hash : K → Nat) (sz d : Nat) (items : List (K × V)) :
    Bucket K V × Bucket K V :=
  redistGo hash d items { size := sz, depth := d + 1, list := [] }
    { size := sz, depth := d + 1, list := [] }

/-- The directory-repointing loop of `Insert`'s split: every slot `i`
with `dir_[i] == target_bucket` is redirected to `bucket_1` when bit `d`
of `i` is set and to `bucket_0` otherwise.  `base` is the index of the
first remaining slot. -/
def updDir (targetId id0 id1 d : Nat) : Nat → List Nat → List Nat
  | _, [] => []
  | base, bid :: rest =>
    (if bid = targetId then (if Nat.testBit base d then id1 else id0) else bid) ::
      updDir targetId id0 id1 d (base + 1) rest

/-- One iteration of `Insert`'s `while (dir_[IndexOf(key)]->IsFull())`
body: double the directory when the target bucket's local depth has
reached the global depth, then split the target bucket into two fresh
buckets of depth one greater, redistribute its items by hash bit `d`,
repoint every aliasing directory slot, and bump `num_buckets_`. -/
def splitStep (hash : K → Nat) (t : ExtendibleHashTable K V) (k : K) :
    ExtendibleHashTable K V :=
  let index := IndexOf hash t k
  let targetId := t.dirAt index
  let target := t.bAt targetId
  let t1 :=
    if target.depth = t.globalDepth then
      { t with globalDepth := t.globalDepth + 1, dir := t.dir ++ t.dir }
    else t
  let d := target.depth
  let bs := redistribute hash t.bucketSize d target.list
  let id0 := t1.buckets.length
  { globalDepth := t1.globalDepth, bucketSize := t1.bucketSize,
    numBuckets := t1.numBuckets + 1,
    buckets := t1.buckets ++ [bs.1, bs.2],
    dir := updDir targetId id0 (id0 + 1) d 0 t1.dir }

/-- The `while (dir_[IndexOf(key)]->IsFull())` loop of `Insert`, with
explicit fuel bounding the number of splits; `none` means the loop was
still running when the fuel ran out. -/
def insertLoop (hash : K → Nat) (k : K) :
    Nat → ExtendibleHashTable K V → Option (ExtendibleHashTable K V)
  | 0, t =>
    if (t.bAt (t.dirAt (IndexOf hash t k))).isFull then none else some t
  | fuel + 1, t =>
    if (t.bAt (t.dirAt (IndexOf hash t k))).isFull then
      insertLoop hash k fuel (splitStep hash t k)
    else some t

/-- `ExtendibleHashTable::Insert`: run the split loop, then either
overwrite the existing pair for the key or `Bucket::Insert` it into the
(now non-full) target bucket. -/
def Insert (hash : K → Nat) (fuel : Nat) (t : ExtendibleHashTable K V) (k : K) (v : V) :
    Option (ExtendibleHashTable K V) :=
  (insertLoop hash k fuel t).map fun t' =>
    let bid := t'.dirAt (IndexOf hash t' k)
    let b := t'.bAt bid
    let b' :=
      if (findVal k b.list).isSome then { b with list := overwriteFirst k v b.list }
      else (Bucket.insert k v b).2
    { t' with buckets := t'.buckets.set bid b' }

/-- A public hash-table operation, for stating properties of operation
sequences.  `find` is read-only in the source, so it carries no data we
need to replay. -/
inductive Op (K V : Type) where
  | ins (k : K) (v : V)
  | rem (k : K)
  | find (k : K)
deriving DecidableEq

/-- Run one operation; an `Insert` whose split loop exceeds the fuel
yields `none`. -/
def runOp (hash : K → Nat) (fuel : Nat) (t : ExtendibleHashTable K V) :
    Op K V → Option (ExtendibleHashTable K V)
  | .ins k v => Insert hash fuel t k v
  | .rem k => some (Remove hash t k).2
  | .find _ => some t

/-- Run a sequence of operations from a given state. -/
def runOps (hash : K → Nat) (fuel : Nat) :
    List (Op K V) → ExtendibleHashTable K V → Option (ExtendibleHashTable K V)
  | [], t => some t
  | op :: rest, t =>
    match runOp hash fuel t op with
    | none => none
    | some t' => runOps hash fuel rest t'

/-- The value the history of operations prescribes for key `k`, given an
accumulated answer for the operations already folded: the most recent
`ins k v` not followed by a `rem k`. -/
def specStep (k : K) (acc : Option V) : Op K V → Option V
  | .ins k' v => if k' = k then some v else acc
  | .rem k' => if k' = k then none else acc
  | .find _ => acc

/-- Fold `specStep` over an operation list starting from `acc`. -/
def specFrom (k : K) (acc : Option V) (ops : List (Op K V)) : Option V :=
  ops.foldl (specStep k) acc

/-- The value for `k` prescribed by a full history starting from the
empty table: the most recently inserted value, or `none` if `k` was never
inserted or was removed since. -/
def specLookup (k : K) (ops : List (Op K V)) : Option V := specFrom k none ops

end ExtendibleHashTable

/-! ### Arithmetic of low bits: `x % 2 ^ d` as the low `d` bits of `x` -/

theorem testBit_mod_pow {x n b : Nat} (h : b < n) :
    (x % 2 ^ n).testBit b = x.testBit b := by
  rw [Nat.testBit_mod_two_pow]
  simp [h]

theorem modPow_eq_iff (i j d : Nat) :
    i % 2 ^ d = j % 2 ^ d ↔ ∀ b, b < d → i.testBit b = j.testBit b := by
  constructor
  · intro h b hb
    rw [← @testBit_mod_pow i d b hb, ← @testBit_mod_pow j d b hb, h]
  · intro h
    apply Nat.eq_of_testBit_eq
    intro b
    rw [Nat.testBit_mod_two_pow, Nat.testBit_mod_two_pow]
    by_cases hb : b < d
    · simp [hb, h b hb]
    · simp [hb]

theorem modPow_succ_iff (i j d : Nat) :
    i % 2 ^ (d + 1) = j % 2 ^ (d + 1) ↔
      (i % 2 ^ d = j % 2 ^ d ∧ i.testBit d = j.testBit d) := by
  simp only [modPow_eq_iff]
  constructor
  · intro h
    exact ⟨fun b hb => h b (by omega), h d (by omega)⟩
  · rintro ⟨h1, h2⟩ b hb
    rcases Nat.lt_or_ge b d with hb' | hb'
    · exact h1 b hb'
    · have hbd : b = d := by omega
      subst hbd
      exact h2

theorem modPow_mono {i j : Nat} (d e : Nat) (hde : d ≤ e)
    (h : i % 2 ^ e = j % 2 ^ e) : i % 2 ^ d = j % 2 ^ d := by
  have hdvd : (2 : Nat) ^ d ∣ 2 ^ e := pow_dvd_pow 2 hde
  calc i % 2 ^ d = i % 2 ^ e % 2 ^ d := (Nat.mod_mod_of_dvd i hdvd).symm
    _ = j % 2 ^ e % 2 ^ d := by rw [h]
    _ = j % 2 ^ d := Nat.mod_mod_of_dvd j hdvd

theorem mod_mod_pow {i : Nat} (d e : Nat) (hde : d ≤ e) :
    i % 2 ^ e % 2 ^ d = i % 2 ^ d :=
  Nat.mod_mod_of_dvd i (pow_dvd_pow 2 hde)

theorem exists_modPow_ne {a b : Nat} (h : a ≠ b) : ∃ n, a % 2 ^ n ≠ b % 2 ^ n := by
  refine ⟨max a b + 1, ?_⟩
  have ha : a < 2 ^ (max a b + 1) :=
    lt_of_le_of_lt (le_max_left a b) (lt_of_lt_of_le (Nat.lt_two_pow _)
      (Nat.pow_le_pow_right (by omega) (by omega)))
  have hb : b < 2 ^ (max a b + 1) :=
    lt_of_le_of_lt (le_max_right a b) (lt_of_lt_of_le (Nat.lt_two_pow _)
      (Nat.pow_le_pow_right (by omega) (by omega)))
  rw [Nat.mod_eq_of_lt ha, Nat.mod_eq_of_lt hb]
  exact h

theorem modPow_ne_mono {a b : Nat} (n m : Nat) (hnm : n ≤ m)
    (h : a % 2 ^ n ≠ b % 2 ^ n) : a % 2 ^ m ≠ b % 2 ^ m :=
  fun he => h (modPow_mono n m hnm he)

/-! ### `List.getD` facts for the directory and the bucket arena -/

theorem getD_set_self {α : Type} (l : List α) (i : Nat) (x d : α) (h : i < l.length) :
    (l.set i x).getD i d = x := by
  simp [List.getD, List.getElem?_set_self, h]

theorem getD_set_ne {α : Type} (l : List α) (i j : Nat) (x d : α) (h : i ≠ j) :
    (l.set i x).getD j d = l.getD j d := by
  simp [List.getD, List.getElem?_set_ne h]

theorem getD_append_double {α : Type} (l : List α) (i : Nat) (d : α)
    (h : i < 2 * l.length) : (l ++ l).getD i d = l.getD (i % l.length) d := by
  rcases Nat.lt_or_ge i l.length with hi | hi
  · rw [List.getD_append l l d i hi, Nat.mod_eq_of_lt hi]
  · rw [List.getD_append_right l l d i hi]
    have hlen : 0 < l.length := by omega
    have hmod : i % l.length = i - l.length := by
      have h2 : i - l.length < l.length := by omega
      conv_lhs => rw [← Nat.sub_add_cancel hi]
      rw [Nat.add_mod_right, Nat.mod_eq_of_lt h2]
    rw [hmod]

theorem getD_append_left {α : Type} (l l' : List α) (i : Nat) (d : α)
    (h : i < l.length) : (l ++ l').getD i d = l.getD i d :=
  List.getD_append l l' d i h

/-! ### Association-list scan lemmas -/

variable {K V : Type} [DecidableEq K]

theorem findVal_eq_none {k : K} :
    ∀ {l : List (K × V)}, findVal k l = none ↔ ∀ p ∈ l, p.1 ≠ k := by
  intro l
  induction l with
  | nil => simp [findVal]
  | cons p rest ih =>
    by_cases h : p.1 = k <;> simp [findVal, h, ih]

theorem findVal_isSome_of_mem {l : List (K × V)} {p : K × V} (hp : p ∈ l) :
    (findVal p.1 l).isSome := by
  induction l with
  | nil => cases hp
  | cons q rest ih =>
    cases hp with
    | head => simp [findVal]
    | tail _ hp =>
      by_cases h : q.1 = p.1 <;> simp [findVal, h, ih hp]

theorem overwriteFirst_keys (k : K) (v : V) :
    ∀ l : List (K × V), (overwriteFirst k v l).map Prod.fst = l.map Prod.fst := by
  intro l
  induction l with
  | nil => rfl
  | cons p rest ih =>
    by_cases h : p.1 = k <;> simp [overwriteFirst, h, ih]

theorem overwriteFirst_length (k : K) (v : V) :
    ∀ l : List (K × V), (overwriteFirst k v l).length = l.length := by
  intro l
  have := overwriteFirst_keys k v l
  calc (overwriteFirst k v l).length = ((overwriteFirst k v l).map Prod.fst).length := by simp
    _ = (l.map Prod.fst).length := by rw [this]
    _ = l.length := by simp

theorem overwriteFirst_mem_keys {k : K} {v : V} {l : List (K × V)} {p : K × V}
    (hp : p ∈ overwriteFirst k v l) : p.1 ∈ l.map Prod.fst := by
  have : p.1 ∈ (overwriteFirst k v l).map Prod.fst := List.mem_map_of_mem Prod.fst hp
  rwa [overwriteFirst_keys] at this

theorem findVal_overwrite_self (k : K) (v : V) :
    ∀ l : List (K × V), (findVal k l).isSome →
      findVal k (overwriteFirst k v l) = some v := by
  intro l
  induction l with
  | nil => simp [findVal]
  | cons p rest ih =>
    intro h
    by_cases hp : p.1 = k
    · simp [overwriteFirst, hp, findVal]
    · simp only [findVal, hp, if_neg, ite_false] at h
      simp [overwriteFirst, hp, findVal, ih h]

theorem findVal_overwrite_ne (k k' : K) (v : V) (hne : k' ≠ k) :
    ∀ l : List (K × V), findVal k' (overwriteFirst k v l) = findVal k' l := by
  intro l
  have hne' : ¬ (k = k') := fun h => hne h.symm
  induction l with
  | nil => rfl
  | cons p rest ih =>
    by_cases hp : p.1 = k
    · have hp' : ¬ p.1 = k' := by rw [hp]; exact fun h => hne h.symm
      simp [overwriteFirst, hp, findVal, hp', hne, hne']
    · by_cases hq : p.1 = k' <;> simp [overwriteFirst, hp, findVal, hq, ih, hne, hne']

theorem findVal_append_one (k k0 : K) (v0 : V) (l : List (K × V)) :
    findVal k (l ++ [(k0, v0)]) =
      (findVal k l).orElse (fun _ => if k0 = k then some v0 else none) := by
  induction l with
  | nil => simp [findVal]
  | cons p rest ih =>
    by_cases hp : p.1 = k <;> simp [findVal, hp, ih]

theorem removeFirst_sublist (k : K) :
    ∀ l : List (K × V), (removeFirst k l).2.Sublist l := by
  intro l
  induction l with
  | nil => simp [removeFirst]
  | cons p rest ih =>
    by_cases hp : p.1 = k
    · simp only [removeFirst, hp, if_pos, ite_true]
      exact List.sublist_cons_self p rest
    · simp only [removeFirst, hp, if_neg, ite_false]
      exact List.Sublist.cons₂ p ih

theorem findVal_removeFirst_self (k : K) :
    ∀ l : List (K × V), (l.map Prod.fst).Nodup →
      findVal k (removeFirst k l).2 = none := by
  intro l
  induction l with
  | nil => intro _; rfl
  | cons p rest ih =>
    intro hnd
    simp only [List.map_cons, List.nodup_cons] at hnd
    by_cases hp : p.1 = k
    · simp only [removeFirst, hp, if_pos, ite_true]
      rw [findVal_eq_none]
      intro q hq hqk
      apply hnd.1
      rw [hp, ← hqk]
      exact List.mem_map_of_mem Prod.fst hq
    · simp only [removeFirst, hp, if_neg, ite_false]
      simp [findVal, hp, ih hnd.2]

theorem findVal_removeFirst_ne (k k' : K) (hne : k' ≠ k) :
    ∀ l : List (K × V), findVal k' (removeFirst k l).2 = findVal k' l := by
  intro l
  have hne' : ¬ (k = k') := fun h => hne h.symm
  induction l with
  | nil => rfl
  | cons p rest ih =>
    by_cases hp : p.1 = k
    · have hp' : ¬ p.1 = k' := by rw [hp]; exact fun h => hne h.symm
      simp [removeFirst, hp, findVal, hp', hne, hne']
    · by_cases hq : p.1 = k' <;> simp [removeFirst, hp, findVal, hq, ih, hne, hne']

theorem exists_uniform_modPow_ne (hash : K → Nat) (hk : Nat) :
    ∀ l : List (K × V), (∀ p ∈ l, hash p.1 ≠ hk) →
      ∃ N, ∀ p ∈ l, hash p.1 % 2 ^ N ≠ hk % 2 ^ N := by
  intro l
  induction l with
  | nil => intro _; exact ⟨0, by simp⟩
  | cons q rest ih =>
    intro hall
    obtain ⟨N1, hN1⟩ := exists_modPow_ne (hall q (List.mem_cons_self q rest))
    obtain ⟨N2, hN2⟩ := ih (fun p hp => hall p (List.mem_cons_of_mem _ hp))
    refine ⟨max N1 N2, ?_⟩
    intro p hp
    rcases List.mem_cons.mp hp with rfl | hp'
    · exact modPow_ne_mono N1 _ (le_max_left _ _) hN1
    · exact modPow_ne_mono N2 _ (le_max_right _ _) (hN2 p hp')

theorem findVal_filter_of_keyPass (k : K) (pred : K × V → Bool) :
    ∀ l : List (K × V), (∀ p ∈ l, p.1 = k → pred p = true) →
      findVal k (l.filter pred) = findVal k l := by
  intro l
  induction l with
  | nil => intro _; rfl
  | cons p rest ih =>
    intro h
    have hrest : ∀ q ∈ rest, q.1 = k → pred q = true :=
      fun q hq => h q (List.mem_cons_of_mem p hq)
    by_cases hp : p.1 = k
    · rw [List.filter_cons, h p (List.mem_cons_self p rest) hp]
      simp [findVal, hp, ih hrest]
    · rw [List.filter_cons]
      by_cases hpred : pred p <;> simp [hpred, findVal, hp, ih hrest]

namespace ExtendibleHashTable

/-! ### Shape lemmas: what each operation does to the table skeleton -/

theorem updDir_length (targetId id0 id1 d : Nat) :
    ∀ (base : Nat) (l : List Nat), (updDir targetId id0 id1 d base l).length = l.length := by
  intro base l
  induction l generalizing base with
  | nil => rfl
  | cons b rest ih => simp [updDir, ih]

theorem updDir_getD (targetId id0 id1 d : Nat) :
    ∀ (base : Nat) (l : List Nat) (j : Nat), j < l.length →
      (updDir targetId id0 id1 d base l).getD j 0 =
        (if l.getD j 0 = targetId then (if (base + j).testBit d then id1 else id0)
         else l.getD j 0) := by
  intro base l
  induction l generalizing base with
  | nil => intro j hj; simp at hj
  | cons b rest ih =>
    intro j hj
    cases j with
    | zero => simp [updDir, List.getD_cons_zero]
    | succ j' =>
      have hj' : j' < rest.length := by simpa using hj
      have := ih (base + 1) j' hj'
      simp only [updDir, List.getD_cons_succ, this]
      have harith : base + 1 + j' = base + (j' + 1) := by omega
      rw [harith]

/-- The redistribution loop appends to its two accumulators exactly the
items whose hash bit `d` is clear resp. set, provided no key repeats and
the total volume fits the bucket capacity (both hold for the items of a
bucket in a well-formed table). -/
theorem redistGo_spec (hash : K → Nat) (d : Nat) :
    ∀ (l : List (K × V)) (b0 b1 : Bucket K V),
      (∀ p ∈ l, findVal p.1 b0.list = none) →
      (∀ p ∈ l, findVal p.1 b1.list = none) →
      b0.list.length + b1.list.length + l.length ≤ b0.size →
      b1.size = b0.size →
      (l.map Prod.fst).Nodup →
      redistGo hash d l b0 b1 =
        ({ b0 with list := b0.list ++ l.filter (fun p => !(hash p.1).testBit d) },
         { b1 with list := b1.list ++ l.filter (fun p => (hash p.1).testBit d) }) := by
  intro l
  induction l with
  | nil =>
    intro b0 b1 _ _ _ _ _
    simp [redistGo]
  | cons p rest ih =>
    intro b0 b1 habs0 habs1 hlen hsz hnd
    simp only [List.map_cons, List.nodup_cons] at hnd
    simp only [List.length_cons] at hlen
    have hp0 : findVal p.1 b0.list = none := habs0 p (List.mem_cons_self p rest)
    have hp1 : findVal p.1 b1.list = none := habs1 p (List.mem_cons_self p rest)
    have habs0' : ∀ q ∈ rest, findVal q.1 b0.list = none :=
      fun q hq => habs0 q (List.mem_cons_of_mem p hq)
    have habs1' : ∀ q ∈ rest, findVal q.1 b1.list = none :=
      fun q hq => habs1 q (List.mem_cons_of_mem p hq)
    by_cases hbit : (hash p.1).testBit d
    · have hfull : b1.isFull = false := by
        simp only [Bucket.isFull, decide_eq_false_iff_not, not_le]
        omega
      have hins : (Bucket.insert p.1 p.2 b1).2 = { b1 with list := b1.list ++ [(p.1, p.2)] } := by
        simp [Bucket.insert, hp1, hfull]
      rw [redistGo, if_pos hbit, hins]
      have hrec := ih b0 { b1 with list := b1.list ++ [(p.1, p.2)] } habs0'
        (fun q hq => by
          show findVal q.1 (b1.list ++ [(p.1, p.2)]) = none
          rw [findVal_append_one]
          have hne : ¬ (p.1 = q.1) := fun h => hnd.1 (h ▸ List.mem_map_of_mem Prod.fst hq)
          simp [habs1' q hq, hne])
        (by show b0.list.length + (b1.list ++ [(p.1, p.2)]).length + rest.length ≤ b0.size
            simp only [List.length_append, List.length_singleton]
            omega)
        (by show b1.size = b0.size
            exact hsz) hnd.2
      rw [hrec]
      simp [List.filter_cons, hbit, List.append_assoc]
    · have hfull : b0.isFull = false := by
        simp only [Bucket.isFull, decide_eq_false_iff_not, not_le]
        omega
      have hins : (Bucket.insert p.1 p.2 b0).2 = { b0 with list := b0.list ++ [(p.1, p.2)] } := by
        simp [Bucket.insert, hp0, hfull]
      rw [redistGo, if_neg hbit, hins]
      have hrec := ih { b0 with list := b0.list ++ [(p.1, p.2)] } b1
        (fun q hq => by
          show findVal q.1 (b0.list ++ [(p.1, p.2)]) = none
          rw [findVal_append_one]
          have hne : ¬ (p.1 = q.1) := fun h => hnd.1 (h ▸ List.mem_map_of_mem Prod.fst hq)
          simp [habs0' q hq, hne])
        habs1'
        (by show (b0.list ++ [(p.1, p.2)]).length + b1.list.length + rest.length ≤ b0.size
            simp only [List.length_append, List.length_singleton]
            omega)
        (by show b1.size = b0.size
            exact hsz) hnd.2
      rw [hrec]
      simp [List.filter_cons, hbit, List.append_assoc]

/-- `redistribute` splits a no-duplicate, capacity-bounded item list into
the two filters by hash bit `d`. -/
theorem redistribute_spec (hash : K → Nat) (sz d : Nat) (l : List (K × V))
    (hlen : l.length ≤ sz) (hnd : (l.map Prod.fst).Nodup) :
    redistribute hash sz d l =
      ({ size := sz, depth := d + 1, list := l.filter (fun p => !(hash p.1).testBit d) },
       { size := sz, depth := d + 1, list := l.filter (fun p => (hash p.1).testBit d) }) := by
  unfold redistribute
  rw [redistGo_spec hash d l { size := sz, depth := d + 1, list := [] }
    { size := sz, depth := d + 1, list := [] } (fun p _ => rfl) (fun p _ => rfl)
    (by simpa using hlen) rfl hnd]
  rfl

/-- Proof-layer view of the directory-doubling prefix of a split
(`global_depth_++; dir_.resize(capacity << 1); dir_[i + capacity] = dir_[i]`). -/
def doubleDir (t : ExtendibleHashTable K V) : ExtendibleHashTable K V :=
  { t with globalDepth := t.globalDepth + 1, dir := t.dir ++ t.dir }

/-- Proof-layer view of the remainder of a split, after the optional
doubling: allocate the two fresh buckets, redistribute, repoint. -/
def splitCore (hash : K → Nat) (t1 : ExtendibleHashTable K V)
    (targetId d sz : Nat) (items : List (K × V)) : ExtendibleHashTable K V :=
  let bs := redistribute hash sz d items
  let i0 := t1.buckets.length
  { globalDepth := t1.globalDepth, bucketSize := t1.bucketSize,
    numBuckets := t1.numBuckets + 1,
    buckets := t1.buckets ++ [bs.1, bs.2],
    dir := updDir targetId i0 (i0 + 1) d 0 t1.dir }

theorem splitStep_decompose (hash : K → Nat) (t : ExtendibleHashTable K V) (k : K) :
    splitStep hash t k =
      splitCore hash
        (if (t.bAt (t.dirAt (IndexOf hash t k))).depth = t.globalDepth then doubleDir t else t)
        (t.dirAt (IndexOf hash t k))
        (t.bAt (t.dirAt (IndexOf hash t k))).depth
        t.bucketSize
        (t.bAt (t.dirAt (IndexOf hash t k))).list := by
  by_cases h : (t.bAt (t.dirAt (IndexOf hash t k))).depth = t.globalDepth <;>
    simp [splitStep, splitCore, doubleDir, h]

/-- The well-formedness invariant of a table state, maintained by every
operation: the directory has length `2 ^ global_depth` and valid arena
indices; every referenced bucket's local depth is at most the global
depth; two slots share a bucket exactly when they agree on the bucket's
low `depth` bits (`cover` and `sep`); every stored key hashes to its
slot's low `depth` bits; keys are unique per bucket; and every bucket has
the configured capacity with its list within capacity. -/
structure GoodState (hash : K → Nat) (t : ExtendibleHashTable K V) : Prop where
  szPos : 1 ≤ t.bucketSize
  dirLen : t.dir.length = 2 ^ t.globalDepth
  dirValid : ∀ i, i < t.dir.length → t.dirAt i < t.buckets.length
  depthLe : ∀ i, i < t.dir.length → (t.bAt (t.dirAt i)).depth ≤ t.globalDepth
  cover : ∀ i, i < t.dir.length → ∀ j, j < t.dir.length →
    j % 2 ^ (t.bAt (t.dirAt i)).depth = i % 2 ^ (t.bAt (t.dirAt i)).depth →
    t.dirAt j = t.dirAt i
  sep : ∀ i, i < t.dir.length → ∀ j, j < t.dir.length →
    t.dirAt i = t.dirAt j →
    i % 2 ^ (t.bAt (t.dirAt i)).depth = j % 2 ^ (t.bAt (t.dirAt i)).depth
  keysHash : ∀ i, i < t.dir.length → ∀ p ∈ (t.bAt (t.dirAt i)).list,
    hash p.1 % 2 ^ (t.bAt (t.dirAt i)).depth = i % 2 ^ (t.bAt (t.dirAt i)).depth
  keysNodup : ∀ i, i < t.dir.length → ((t.bAt (t.dirAt i)).list.map Prod.fst).Nodup
  sizeEq : ∀ i, i < t.dir.length → (t.bAt (t.dirAt i)).size = t.bucketSize
  lenLe : ∀ i, i < t.dir.length → (t.bAt (t.dirAt i)).list.length ≤ t.bucketSize

theorem goodState_new (hash : K → Nat) (sz : Nat) (hsz : 1 ≤ sz) :
    GoodState hash (new K V sz) := by
  refine ⟨hsz, rfl, ?_, ?_, ?_, ?_, ?_, ?_, ?_, ?_⟩ <;>
    first
    | (intro i hi
       have hi0 : i = 0 := by simpa [new] using hi
       subst hi0
       first
       | (intro j hj
          have hj0 : j = 0 := by simpa [new] using hj
          subst hj0
          simp [new, dirAt, bAt])
       | simp [new, dirAt, bAt])

theorem doubleDir_length (t : ExtendibleHashTable K V) :
    (doubleDir t).dir.length = 2 * t.dir.length := by
  simp [doubleDir]
  omega

theorem doubleDir_dirAt (t : ExtendibleHashTable K V) (i : Nat)
    (h : i < 2 * t.dir.length) :
    (doubleDir t).dirAt i = t.dirAt (i % t.dir.length) := by
  simp only [doubleDir, dirAt]
  exact getD_append_double t.dir i 0 h

theorem doubleDir_bAt (t : ExtendibleHashTable K V) (bid : Nat) :
    (doubleDir t).bAt bid = t.bAt bid := rfl

theorem GoodState.doubleDir (hash : K → Nat) {t : ExtendibleHashTable K V}
    (hgs : GoodState hash t) : GoodState hash (BusTub.ExtendibleHashTable.doubleDir t) := by
  have hn : t.dir.length = 2 ^ t.globalDepth := hgs.dirLen
  have hlen2 : (BusTub.ExtendibleHashTable.doubleDir t).dir.length = 2 ^ (t.globalDepth + 1) := by
    rw [doubleDir_length, hn, pow_succ]
    omega
  have hmod : ∀ i, i < 2 ^ (t.globalDepth + 1) → i % t.dir.length < t.dir.length := by
    intro i hi
    apply Nat.mod_lt
    rw [hn]
    positivity
  have hAt : ∀ i, i < 2 ^ (t.globalDepth + 1) →
      (BusTub.ExtendibleHashTable.doubleDir t).dirAt i = t.dirAt (i % t.dir.length) := by
    intro i hi
    apply doubleDir_dirAt
    rw [hn]
    rw [pow_succ] at hi
    omega
  have hDep : ∀ i, i < 2 ^ (t.globalDepth + 1) →
      (t.bAt (t.dirAt (i % t.dir.length))).depth ≤ t.globalDepth :=
    fun i hi => hgs.depthLe _ (hmod i hi)
  have hmm : ∀ (x e : Nat), e ≤ t.globalDepth → x % t.dir.length % 2 ^ e = x % 2 ^ e := by
    intro x e he
    rw [hn]
    exact mod_mod_pow e t.globalDepth he
  refine ⟨hgs.szPos, hlen2, ?_, ?_, ?_, ?_, ?_, ?_, ?_, ?_⟩ <;>
    intro i hi <;> rw [hlen2] at hi <;> rw [hAt i hi]
  · exact hgs.dirValid _ (hmod i hi)
  · exact le_trans (hDep i hi) (Nat.le_succ _)
  · intro j hj hagree
    rw [hlen2] at hj
    rw [hAt j hj]
    apply hgs.cover _ (hmod i hi) _ (hmod j hj)
    rw [hmm j _ (hDep i hi), hmm i _ (hDep i hi)]
    rw [doubleDir_bAt] at hagree
    exact hagree
  · intro j hj heq
    rw [hlen2] at hj
    rw [hAt j hj] at heq
    have := hgs.sep _ (hmod i hi) _ (hmod j hj) heq
    rw [doubleDir_bAt]
    rw [hmm i _ (hDep i hi), hmm j _ (hDep i hi)] at this
    exact this
  · intro p hp
    rw [doubleDir_bAt] at hp ⊢
    have := hgs.keysHash _ (hmod i hi) p hp
    rw [hmm i _ (hDep i hi)] at this
    exact this
  · rw [doubleDir_bAt]
    exact hgs.keysNodup _ (hmod i hi)
  · rw [doubleDir_bAt]
    exact hgs.sizeEq _ (hmod i hi)
  · rw [doubleDir_bAt]
    exact hgs.lenLe _ (hmod i hi)

theorem Find_doubleDir (hash : K → Nat) {t : ExtendibleHashTable K V}
    (hgs : GoodState hash t) (k' : K) :
    Find hash (BusTub.ExtendibleHashTable.doubleDir t) k' = Find hash t k' := by
  unfold Find IndexOf
  have hgd : (BusTub.ExtendibleHashTable.doubleDir t).globalDepth = t.globalDepth + 1 := rfl
  rw [hgd]
  have hp2 : 0 < 2 ^ (t.globalDepth + 1) := Nat.pos_pow_of_pos _ (by omega)
  have hlt : hash k' % 2 ^ (t.globalDepth + 1) < 2 * t.dir.length := by
    rw [hgs.dirLen]
    have hm := Nat.mod_lt (hash k') hp2
    rw [pow_succ] at hm
    omega
  rw [doubleDir_dirAt t _ hlt, doubleDir_bAt]
  rw [hgs.dirLen, mod_mod_pow t.globalDepth (t.globalDepth + 1) (Nat.le_succ _)]

theorem splitCore_globalDepth (hash : K → Nat) (t1 : ExtendibleHashTable K V)
    (targetId d sz : Nat) (items : List (K × V)) :
    (splitCore hash t1 targetId d sz items).globalDepth = t1.globalDepth := rfl

theorem splitCore_bucketSize (hash : K → Nat) (t1 : ExtendibleHashTable K V)
    (targetId d sz : Nat) (items : List (K × V)) :
    (splitCore hash t1 targetId d sz items).bucketSize = t1.bucketSize := rfl

theorem splitCore_dirLen (hash : K → Nat) (t1 : ExtendibleHashTable K V)
    (targetId d sz : Nat) (items : List (K × V)) :
    (splitCore hash t1 targetId d sz items).dir.length = t1.dir.length := by
  unfold splitCore
  exact updDir_length _ _ _ _ _ _

theorem splitCore_bucketsLen (hash : K → Nat) (t1 : ExtendibleHashTable K V)
    (targetId d sz : Nat) (items : List (K × V)) :
    (splitCore hash t1 targetId d sz items).buckets.length = t1.buckets.length + 2 := by
  unfold splitCore
  simp

theorem splitCore_dirAt (hash : K → Nat) (t1 : ExtendibleHashTable K V)
    (targetId d sz : Nat) (items : List (K × V)) (j : Nat) (hj : j < t1.dir.length) :
    (splitCore hash t1 targetId d sz items).dirAt j =
      (if t1.dirAt j = targetId then
        (if j.testBit d then t1.buckets.length + 1 else t1.buckets.length)
       else t1.dirAt j) := by
  show (updDir targetId t1.buckets.length (t1.buckets.length + 1) d 0 t1.dir).getD j 0 = _
  rw [updDir_getD targetId _ _ d 0 t1.dir j hj]
  simp [dirAt]

theorem splitCore_bAt_old (hash : K → Nat) (t1 : ExtendibleHashTable K V)
    (targetId d sz : Nat) (items : List (K × V)) (bid : Nat)
    (h : bid < t1.buckets.length) :
    (splitCore hash t1 targetId d sz items).bAt bid = t1.bAt bid := by
  show (t1.buckets ++ _).getD bid _ = _
  exact getD_append_left _ _ _ _ h

theorem splitCore_bAt_new0 (hash : K → Nat) (t1 : ExtendibleHashTable K V)
    (targetId d sz : Nat) (items : List (K × V))
    (hle : items.length ≤ sz) (hnd : (items.map Prod.fst).Nodup) :
    (splitCore hash t1 targetId d sz items).bAt t1.buckets.length =
      { size := sz, depth := d + 1,
        list := items.filter (fun p => !(hash p.1).testBit d) } := by
  show (t1.buckets ++
    [(redistribute hash sz d items).1, (redistribute hash sz d items).2]).getD
      t1.buckets.length _ = _
  rw [List.getD_append_right _ _ _ _ (le_refl _), Nat.sub_self,
    redistribute_spec hash sz d items hle hnd]
  rfl

theorem splitCore_bAt_new1 (hash : K → Nat) (t1 : ExtendibleHashTable K V)
    (targetId d sz : Nat) (items : List (K × V))
    (hle : items.length ≤ sz) (hnd : (items.map Prod.fst).Nodup) :
    (splitCore hash t1 targetId d sz items).bAt (t1.buckets.length + 1) =
      { size := sz, depth := d + 1,
        list := items.filter (fun p => (hash p.1).testBit d) } := by
  show (t1.buckets ++
    [(redistribute hash sz d items).1, (redistribute hash sz d items).2]).getD
      (t1.buckets.length + 1) _ = _
  rw [List.getD_append_right _ _ _ _ (by omega), redistribute_spec hash sz d items hle hnd]
  simp

/-- The split core preserves the table invariant, provided the target is
the bucket of some directory slot whose local depth is strictly below the
global depth (guaranteed by the preceding directory doubling). -/
theorem goodState_splitCore (hash : K → Nat) {t1 : ExtendibleHashTable K V}
    (hgs : GoodState hash t1) {sIdx targetId d : Nat}
    (hs : sIdx < t1.dir.length)
    (htid : t1.dirAt sIdx = targetId)
    (hd : (t1.bAt targetId).depth = d)
    (hlt : d < t1.globalDepth)
    (co : ExtendibleHashTable K V)
    (hco : co = splitCore hash t1 targetId d t1.bucketSize (t1.bAt targetId).list) :
    GoodState hash co := by
  have hle : (t1.bAt targetId).list.length ≤ t1.bucketSize := by
    have h := hgs.lenLe sIdx hs
    rwa [htid] at h
  have hnd : ((t1.bAt targetId).list.map Prod.fst).Nodup := by
    have h := hgs.keysNodup sIdx hs
    rwa [htid] at h
  have htidL : targetId < t1.buckets.length := by
    have h := hgs.dirValid sIdx hs
    rwa [htid] at h
  have hdsIdx : (t1.bAt (t1.dirAt sIdx)).depth = d := by rw [htid, hd]
  have hiff : ∀ j, j < t1.dir.length →
      (t1.dirAt j = targetId ↔ j % 2 ^ d = sIdx % 2 ^ d) := by
    intro j hj
    constructor
    · intro heq
      have h := hgs.sep j hj sIdx hs (by rw [heq, htid])
      rwa [heq, hd] at h
    · intro hagree
      have h := hgs.cover sIdx hs j hj (by rw [hdsIdx]; exact hagree)
      rwa [htid] at h
  have hkeys : ∀ p ∈ (t1.bAt targetId).list, hash p.1 % 2 ^ d = sIdx % 2 ^ d := by
    intro p hp
    have h := hgs.keysHash sIdx hs p (by rw [htid]; exact hp)
    rwa [hdsIdx] at h
  have hG : co.globalDepth = t1.globalDepth := by rw [hco]; rfl
  have hBS : co.bucketSize = t1.bucketSize := by rw [hco]; rfl
  have hLen : co.dir.length = t1.dir.length := by
    rw [hco]; exact splitCore_dirLen hash t1 targetId d t1.bucketSize (t1.bAt targetId).list
  have hBL : co.buckets.length = t1.buckets.length + 2 := by
    rw [hco]; exact splitCore_bucketsLen hash t1 targetId d t1.bucketSize (t1.bAt targetId).list
  have hdirAt : ∀ j, j < t1.dir.length → co.dirAt j =
      (if t1.dirAt j = targetId then
        (if j.testBit d then t1.buckets.length + 1 else t1.buckets.length)
       else t1.dirAt j) := by
    intro j hj
    rw [hco]
    exact splitCore_dirAt hash t1 targetId d t1.bucketSize (t1.bAt targetId).list j hj
  have hbOld : ∀ bid, bid < t1.buckets.length → co.bAt bid = t1.bAt bid := by
    intro bid h
    rw [hco]
    exact splitCore_bAt_old hash t1 targetId d t1.bucketSize (t1.bAt targetId).list bid h
  have hb0 : co.bAt t1.buckets.length =
      { size := t1.bucketSize, depth := d + 1,
        list := (t1.bAt targetId).list.filter (fun p => !(hash p.1).testBit d) } := by
    rw [hco]
    exact splitCore_bAt_new0 hash t1 targetId d t1.bucketSize (t1.bAt targetId).list hle hnd
  have hb1 : co.bAt (t1.buckets.length + 1) =
      { size := t1.bucketSize, depth := d + 1,
        list := (t1.bAt targetId).list.filter (fun p => (hash p.1).testBit d) } := by
    rw [hco]
    exact splitCore_bAt_new1 hash t1 targetId d t1.bucketSize (t1.bAt targetId).list hle hnd
  have hslotT : ∀ j, j < t1.dir.length → t1.dirAt j = targetId →
      (j.testBit d = true → co.dirAt j = t1.buckets.length + 1 ∧
        co.bAt (co.dirAt j) =
          { size := t1.bucketSize, depth := d + 1,
            list := (t1.bAt targetId).list.filter (fun p => (hash p.1).testBit d) }) ∧
      (j.testBit d = false → co.dirAt j = t1.buckets.length ∧
        co.bAt (co.dirAt j) =
          { size := t1.bucketSize, depth := d + 1,
            list := (t1.bAt targetId).list.filter (fun p => !(hash p.1).testBit d) }) := by
    intro j hj heq
    constructor
    · intro hbit
      have h1 : co.dirAt j = t1.buckets.length + 1 := by
        rw [hdirAt j hj]
        simp [heq, hbit]
      exact ⟨h1, by rw [h1]; exact hb1⟩
    · intro hbit
      have h1 : co.dirAt j = t1.buckets.length := by
        rw [hdirAt j hj]
        simp [heq, hbit]
      exact ⟨h1, by rw [h1]; exact hb0⟩
  have hslotE : ∀ j, j < t1.dir.length → t1.dirAt j ≠ targetId →
      co.dirAt j = t1.dirAt j ∧ co.bAt (co.dirAt j) = t1.bAt (t1.dirAt j) := by
    intro j hj hne
    have h1 : co.dirAt j = t1.dirAt j := by
      rw [hdirAt j hj]
      simp [hne]
    exact ⟨h1, by rw [h1]; exact hbOld _ (hgs.dirValid j hj)⟩
  have hdepT : ∀ j, j < t1.dir.length → t1.dirAt j = targetId →
      (co.bAt (co.dirAt j)).depth = d + 1 := by
    intro j hj heq
    cases hbit : j.testBit d with
    | false => rw [((hslotT j hj heq).2 hbit).2]
    | true => rw [((hslotT j hj heq).1 hbit).2]
  refine ⟨?_, ?_, ?_, ?_, ?_, ?_, ?_, ?_, ?_, ?_⟩
  · rw [hBS]; exact hgs.szPos
  · rw [hLen, hG]; exact hgs.dirLen
  · intro i hi
    rw [hLen] at hi
    rw [hBL]
    by_cases hti : t1.dirAt i = targetId
    · cases hbit : i.testBit d with
      | false => rw [((hslotT i hi hti).2 hbit).1]; omega
      | true => rw [((hslotT i hi hti).1 hbit).1]; omega
    · rw [(hslotE i hi hti).1]
      have := hgs.dirValid i hi
      omega
  · intro i hi
    rw [hLen] at hi
    rw [hG]
    by_cases hti : t1.dirAt i = targetId
    · rw [hdepT i hi hti]; omega
    · rw [(hslotE i hi hti).2]
      exact hgs.depthLe i hi
  · intro i hi j hj hagree
    rw [hLen] at hi hj
    by_cases hti : t1.dirAt i = targetId
    · rw [hdepT i hi hti] at hagree
      have hmodd : j % 2 ^ d = i % 2 ^ d := modPow_mono d (d + 1) (Nat.le_succ d) hagree
      have hbits : j.testBit d = i.testBit d := ((modPow_succ_iff j i d).mp hagree).2
      have htj : t1.dirAt j = targetId := by
        apply (hiff j hj).mpr
        rw [hmodd]
        exact (hiff i hi).mp hti
      cases hbit : i.testBit d with
      | false =>
        have hbj : j.testBit d = false := by rw [hbits, hbit]
        rw [((hslotT j hj htj).2 hbj).1, ((hslotT i hi hti).2 hbit).1]
      | true =>
        have hbj : j.testBit d = true := by rw [hbits, hbit]
        rw [((hslotT j hj htj).1 hbj).1, ((hslotT i hi hti).1 hbit).1]
    · have hsE := hslotE i hi hti
      rw [hsE.2] at hagree
      have htj := hgs.cover i hi j hj hagree
      have htjne : t1.dirAt j ≠ targetId := by rw [htj]; exact hti
      rw [(hslotE j hj htjne).1, hsE.1, htj]
  · intro i hi j hj heq
    rw [hLen] at hi hj
    by_cases hti : t1.dirAt i = targetId
    · have htj : t1.dirAt j = targetId := by
        by_contra htjne
        have hsEj := hslotE j hj htjne
        have hvj : t1.dirAt j < t1.buckets.length := hgs.dirValid j hj
        cases hbit : i.testBit d with
        | true =>
          have h1 := ((hslotT i hi hti).1 hbit).1
          rw [h1, hsEj.1] at heq
          omega
        | false =>
          have h1 := ((hslotT i hi hti).2 hbit).1
          rw [h1, hsEj.1] at heq
          omega
      have hbits : i.testBit d = j.testBit d := by
        cases hbi : i.testBit d <;> cases hbj : j.testBit d
        · rfl
        · exfalso
          rw [((hslotT i hi hti).2 hbi).1, ((hslotT j hj htj).1 hbj).1] at heq
          omega
        · exfalso
          rw [((hslotT i hi hti).1 hbi).1, ((hslotT j hj htj).2 hbj).1] at heq
          omega
        · rfl
      rw [hdepT i hi hti]
      apply (modPow_succ_iff i j d).mpr
      refine ⟨?_, hbits⟩
      have hii := (hiff i hi).mp hti
      have hjj := (hiff j hj).mp htj
      rw [hii, hjj]
    · have hsEi := hslotE i hi hti
      have hvi : t1.dirAt i < t1.buckets.length := hgs.dirValid i hi
      have htj : t1.dirAt j ≠ targetId := by
        intro htj
        cases hbj : j.testBit d with
        | true =>
          have h1 := ((hslotT j hj htj).1 hbj).1
          rw [hsEi.1, h1] at heq
          omega
        | false =>
          have h1 := ((hslotT j hj htj).2 hbj).1
          rw [hsEi.1, h1] at heq
          omega
      have hsEj := hslotE j hj htj
      rw [hsEi.1, hsEj.1] at heq
      rw [hsEi.2]
      exact hgs.sep i hi j hj heq
  · intro i hi p hp
    rw [hLen] at hi
    by_cases hti : t1.dirAt i = targetId
    · rw [hdepT i hi hti]
      cases hbit : i.testBit d with
      | true =>
        have hbkt := ((hslotT i hi hti).1 hbit).2
        rw [hbkt] at hp
        have hmem := List.mem_filter.mp hp
        have h1 : hash p.1 % 2 ^ d = i % 2 ^ d := by
          rw [hkeys p hmem.1]
          exact ((hiff i hi).mp hti).symm
        apply (modPow_succ_iff _ _ d).mpr
        refine ⟨h1, ?_⟩
        have hbp : (hash p.1).testBit d = true := by simpa using hmem.2
        rw [hbp, hbit]
      | false =>
        have hbkt := ((hslotT i hi hti).2 hbit).2
        rw [hbkt] at hp
        have hmem := List.mem_filter.mp hp
        have h1 : hash p.1 % 2 ^ d = i % 2 ^ d := by
          rw [hkeys p hmem.1]
          exact ((hiff i hi).mp hti).symm
        apply (modPow_succ_iff _ _ d).mpr
        refine ⟨h1, ?_⟩
        have hbp : (hash p.1).testBit d = false := by simpa using hmem.2
        rw [hbp, hbit]
    · have hsE := hslotE i hi hti
      rw [hsE.2] at hp ⊢
      exact hgs.keysHash i hi p hp
  · intro i hi
    rw [hLen] at hi
    by_cases hti : t1.dirAt i = targetId
    · cases hbit : i.testBit d with
      | true =>
        rw [((hslotT i hi hti).1 hbit).2]
        exact hnd.sublist (((t1.bAt targetId).list.filter_sublist).map Prod.fst)
      | false =>
        rw [((hslotT i hi hti).2 hbit).2]
        exact hnd.sublist (((t1.bAt targetId).list.filter_sublist).map Prod.fst)
    · rw [(hslotE i hi hti).2]
      exact hgs.keysNodup i hi
  · intro i hi
    rw [hLen] at hi
    rw [hBS]
    by_cases hti : t1.dirAt i = targetId
    · cases hbit : i.testBit d with
      | true => rw [((hslotT i hi hti).1 hbit).2]
      | false => rw [((hslotT i hi hti).2 hbit).2]
    · rw [(hslotE i hi hti).2]
      exact hgs.sizeEq i hi
  · intro i hi
    rw [hLen] at hi
    rw [hBS]
    by_cases hti : t1.dirAt i = targetId
    · cases hbit : i.testBit d with
      | true =>
        rw [((hslotT i hi hti).1 hbit).2]
        exact le_trans ((t1.bAt targetId).list.length_filter_le _) hle
      | false =>
        rw [((hslotT i hi hti).2 hbit).2]
        exact le_trans ((t1.bAt targetId).list.length_filter_le _) hle
    · rw [(hslotE i hi hti).2]
      exact hgs.lenLe i hi

theorem splitCore_slotT (hash : K → Nat) (t1 : ExtendibleHashTable K V)
    (targetId d : Nat)
    (hle : (t1.bAt targetId).list.length ≤ t1.bucketSize)
    (hnd : ((t1.bAt targetId).list.map Prod.fst).Nodup)
    (j : Nat) (hj : j < t1.dir.length) (heq : t1.dirAt j = targetId)
    (co : ExtendibleHashTable K V)
    (hco : co = splitCore hash t1 targetId d t1.bucketSize (t1.bAt targetId).list) :
    (j.testBit d = true → co.dirAt j = t1.buckets.length + 1 ∧
      co.bAt (co.dirAt j) =
        { size := t1.bucketSize, depth := d + 1,
          list := (t1.bAt targetId).list.filter (fun p => (hash p.1).testBit d) }) ∧
    (j.testBit d = false → co.dirAt j = t1.buckets.length ∧
      co.bAt (co.dirAt j) =
        { size := t1.bucketSize, depth := d + 1,
          list := (t1.bAt targetId).list.filter (fun p => !(hash p.1).testBit d) }) := by
  have hdirAt := splitCore_dirAt hash t1 targetId d t1.bucketSize (t1.bAt targetId).list j hj
  constructor
  · intro hbit
    have h1 : co.dirAt j = t1.buckets.length + 1 := by
      rw [hco, hdirAt]
      simp [heq, hbit]
    refine ⟨h1, ?_⟩
    rw [h1, hco]
    exact splitCore_bAt_new1 hash t1 targetId d t1.bucketSize (t1.bAt targetId).list hle hnd
  · intro hbit
    have h1 : co.dirAt j = t1.buckets.length := by
      rw [hco, hdirAt]
      simp [heq, hbit]
    refine ⟨h1, ?_⟩
    rw [h1, hco]
    exact splitCore_bAt_new0 hash t1 targetId d t1.bucketSize (t1.bAt targetId).list hle hnd

theorem splitCore_slotE (hash : K → Nat) (t1 : ExtendibleHashTable K V)
    (targetId d : Nat)
    (j : Nat) (hj : j < t1.dir.length) (hne : t1.dirAt j ≠ targetId)
    (hvalid : t1.dirAt j < t1.buckets.length)
    (co : ExtendibleHashTable K V)
    (hco : co = splitCore hash t1 targetId d t1.bucketSize (t1.bAt targetId).list) :
    co.dirAt j = t1.dirAt j ∧ co.bAt (co.dirAt j) = t1.bAt (t1.dirAt j) := by
  have h1 : co.dirAt j = t1.dirAt j := by
    rw [hco, splitCore_dirAt hash t1 targetId d t1.bucketSize (t1.bAt targetId).list j hj]
    simp [hne]
  refine ⟨h1, ?_⟩
  rw [h1, hco]
  exact splitCore_bAt_old hash t1 targetId d t1.bucketSize (t1.bAt targetId).list _ hvalid

/-- The split core does not change the result of `Find` for any key: it
only repartitions the target bucket's items between the two fresh buckets
consistently with the hash bits. -/
theorem Find_splitCore (hash : K → Nat) {t1 : ExtendibleHashTable K V}
    (hgs : GoodState hash t1) {sIdx targetId d : Nat}
    (hs : sIdx < t1.dir.length)
    (htid : t1.dirAt sIdx = targetId)
    (hd : (t1.bAt targetId).depth = d)
    (hlt : d < t1.globalDepth)
    (co : ExtendibleHashTable K V)
    (hco : co = splitCore hash t1 targetId d t1.bucketSize (t1.bAt targetId).list)
    (k' : K) : Find hash co k' = Find hash t1 k' := by
  have hle : (t1.bAt targetId).list.length ≤ t1.bucketSize := by
    have h := hgs.lenLe sIdx hs
    rwa [htid] at h
  have hnd : ((t1.bAt targetId).list.map Prod.fst).Nodup := by
    have h := hgs.keysNodup sIdx hs
    rwa [htid] at h
  have hG : co.globalDepth = t1.globalDepth := by rw [hco]; rfl
  have hpos : 0 < 2 ^ t1.globalDepth := Nat.pos_pow_of_pos _ (by omega)
  have hskLt : hash k' % 2 ^ t1.globalDepth < t1.dir.length := by
    rw [hgs.dirLen]
    exact Nat.mod_lt _ hpos
  have hIco : IndexOf hash co k' = hash k' % 2 ^ t1.globalDepth := by rw [IndexOf, hG]
  have hIt1 : IndexOf hash t1 k' = hash k' % 2 ^ t1.globalDepth := rfl
  have hbitSk : (hash k' % 2 ^ t1.globalDepth).testBit d = (hash k').testBit d :=
    testBit_mod_pow hlt
  unfold Find
  rw [hIco, hIt1]
  by_cases hti : t1.dirAt (hash k' % 2 ^ t1.globalDepth) = targetId
  · cases hbit : (hash k' % 2 ^ t1.globalDepth).testBit d with
    | true =>
      have hsl := (splitCore_slotT hash t1 targetId d hle hnd _ hskLt hti co hco).1 hbit
      rw [hsl.2, hti]
      show findVal k' ((t1.bAt targetId).list.filter (fun p => (hash p.1).testBit d)) =
        findVal k' (t1.bAt targetId).list
      apply findVal_filter_of_keyPass
      intro p hp hpk
      rw [hpk, ← hbitSk, hbit]
    | false =>
      have hsl := (splitCore_slotT hash t1 targetId d hle hnd _ hskLt hti co hco).2 hbit
      rw [hsl.2, hti]
      show findVal k' ((t1.bAt targetId).list.filter (fun p => !(hash p.1).testBit d)) =
        findVal k' (t1.bAt targetId).list
      apply findVal_filter_of_keyPass
      intro p hp hpk
      rw [hpk, ← hbitSk, hbit]
      rfl
  · have hsE := splitCore_slotE hash t1 targetId d _ hskLt hti
      (hgs.dirValid _ hskLt) co hco
    rw [hsE.2]

/-- After the split core, the bucket at the split key's slot is one of
the two fresh buckets: depth one greater, items a selection of the old
target bucket's items. -/
theorem splitCore_kSlot (hash : K → Nat) {t1 : ExtendibleHashTable K V}
    (hgs : GoodState hash t1) {targetId d : Nat} (k : K)
    (htid : t1.dirAt (IndexOf hash t1 k) = targetId)
    (hd : (t1.bAt targetId).depth = d)
    (hlt : d < t1.globalDepth)
    (co : ExtendibleHashTable K V)
    (hco : co = splitCore hash t1 targetId d t1.bucketSize (t1.bAt targetId).list) :
    (co.bAt (co.dirAt (IndexOf hash co k))).depth = d + 1 ∧
    ∀ p ∈ (co.bAt (co.dirAt (IndexOf hash co k))).list, p ∈ (t1.bAt targetId).list := by
  have hskLt : IndexOf hash t1 k < t1.dir.length := by
    rw [hgs.dirLen]
    exact Nat.mod_lt _ (Nat.pos_pow_of_pos _ (by omega))
  have hle : (t1.bAt targetId).list.length ≤ t1.bucketSize := by
    have h := hgs.lenLe _ hskLt
    rwa [htid] at h
  have hnd : ((t1.bAt targetId).list.map Prod.fst).Nodup := by
    have h := hgs.keysNodup _ hskLt
    rwa [htid] at h
  have hIco : IndexOf hash co k = IndexOf hash t1 k := by
    rw [IndexOf, IndexOf, hco]
    rfl
  rw [hIco]
  cases hbit : (IndexOf hash t1 k).testBit d with
  | true =>
    have hsl := (splitCore_slotT hash t1 targetId d hle hnd _ hskLt htid co hco).1 hbit
    rw [hsl.2]
    exact ⟨rfl, fun p hp => (List.mem_filter.mp hp).1⟩
  | false =>
    have hsl := (splitCore_slotT hash t1 targetId d hle hnd _ hskLt htid co hco).2 hbit
    rw [hsl.2]
    exact ⟨rfl, fun p hp => (List.mem_filter.mp hp).1⟩

theorem splitStep_good (hash : K → Nat) (k : K) {t : ExtendibleHashTable K V}
    (hgs : GoodState hash t) : GoodState hash (splitStep hash t k) := by
  rw [splitStep_decompose]
  by_cases hA : (t.bAt (t.dirAt (IndexOf hash t k))).depth = t.globalDepth
  · rw [if_pos hA]
    have hgs1 : GoodState hash (BusTub.ExtendibleHashTable.doubleDir t) :=
      GoodState.doubleDir hash hgs
    have hs : hash k % 2 ^ (t.globalDepth + 1) <
        (BusTub.ExtendibleHashTable.doubleDir t).dir.length := by
      rw [hgs1.dirLen]
      show hash k % 2 ^ (t.globalDepth + 1) < 2 ^ (t.globalDepth + 1)
      exact Nat.mod_lt _ (Nat.pos_pow_of_pos _ (by omega))
    have hlt2 : hash k % 2 ^ (t.globalDepth + 1) < 2 * t.dir.length := by
      rw [hgs.dirLen]
      have hm := Nat.mod_lt (hash k) ((by positivity : 0 < 2 ^ (t.globalDepth + 1)))
      rw [pow_succ] at hm
      omega
    have htid : (BusTub.ExtendibleHashTable.doubleDir t).dirAt
        (hash k % 2 ^ (t.globalDepth + 1)) = t.dirAt (IndexOf hash t k) := by
      rw [doubleDir_dirAt t _ hlt2, hgs.dirLen,
        mod_mod_pow t.globalDepth (t.globalDepth + 1) (Nat.le_succ _)]
      rfl
    have hlt' : (t.bAt (t.dirAt (IndexOf hash t k))).depth <
        (BusTub.ExtendibleHashTable.doubleDir t).globalDepth := by
      show _ < t.globalDepth + 1
      rw [hA]
      omega
    exact goodState_splitCore hash hgs1 hs htid rfl hlt' _ rfl
  · rw [if_neg hA]
    have hs : IndexOf hash t k < t.dir.length := by
      rw [hgs.dirLen]
      exact Nat.mod_lt _ (Nat.pos_pow_of_pos _ (by omega))
    have hlt' : (t.bAt (t.dirAt (IndexOf hash t k))).depth < t.globalDepth :=
      lt_of_le_of_ne (hgs.depthLe _ hs) hA
    exact goodState_splitCore hash hgs hs rfl rfl hlt' _ rfl

theorem Find_splitStep (hash : K → Nat) (k : K) {t : ExtendibleHashTable K V}
    (hgs : GoodState hash t) (k' : K) :
    Find hash (splitStep hash t k) k' = Find hash t k' := by
  rw [splitStep_decompose]
  by_cases hA : (t.bAt (t.dirAt (IndexOf hash t k))).depth = t.globalDepth
  · rw [if_pos hA]
    have hgs1 : GoodState hash (BusTub.ExtendibleHashTable.doubleDir t) :=
      GoodState.doubleDir hash hgs
    have hs : hash k % 2 ^ (t.globalDepth + 1) <
        (BusTub.ExtendibleHashTable.doubleDir t).dir.length := by
      rw [hgs1.dirLen]
      show hash k % 2 ^ (t.globalDepth + 1) < 2 ^ (t.globalDepth + 1)
      exact Nat.mod_lt _ (Nat.pos_pow_of_pos _ (by omega))
    have hlt2 : hash k % 2 ^ (t.globalDepth + 1) < 2 * t.dir.length := by
      rw [hgs.dirLen]
      have hm := Nat.mod_lt (hash k) ((by positivity : 0 < 2 ^ (t.globalDepth + 1)))
      rw [pow_succ] at hm
      omega
    have htid : (BusTub.ExtendibleHashTable.doubleDir t).dirAt
        (hash k % 2 ^ (t.globalDepth + 1)) = t.dirAt (IndexOf hash t k) := by
      rw [doubleDir_dirAt t _ hlt2, hgs.dirLen,
        mod_mod_pow t.globalDepth (t.globalDepth + 1) (Nat.le_succ _)]
      rfl
    have hlt' : (t.bAt (t.dirAt (IndexOf hash t k))).depth <
        (BusTub.ExtendibleHashTable.doubleDir t).globalDepth := by
      show _ < t.globalDepth + 1
      rw [hA]
      omega
    exact (Find_splitCore hash hgs1 hs htid rfl hlt' _ rfl k').trans
      (Find_doubleDir hash hgs k')
  · rw [if_neg hA]
    have hs : IndexOf hash t k < t.dir.length := by
      rw [hgs.dirLen]
      exact Nat.mod_lt _ (Nat.pos_pow_of_pos _ (by omega))
    have hlt' : (t.bAt (t.dirAt (IndexOf hash t k))).depth < t.globalDepth :=
      lt_of_le_of_ne (hgs.depthLe _ hs) hA
    exact Find_splitCore hash hgs hs rfl rfl hlt' _ rfl k'

theorem splitStep_kSlot (hash : K → Nat) (k : K) {t : ExtendibleHashTable K V}
    (hgs : GoodState hash t) :
    ((splitStep hash t k).bAt
      ((splitStep hash t k).dirAt (IndexOf hash (splitStep hash t k) k))).depth =
      (t.bAt (t.dirAt (IndexOf hash t k))).depth + 1 ∧
    ∀ p ∈ ((splitStep hash t k).bAt
        ((splitStep hash t k).dirAt (IndexOf hash (splitStep hash t k) k))).list,
      p ∈ (t.bAt (t.dirAt (IndexOf hash t k))).list := by
  rw [splitStep_decompose]
  by_cases hA : (t.bAt (t.dirAt (IndexOf hash t k))).depth = t.globalDepth
  · rw [if_pos hA]
    have hgs1 : GoodState hash (BusTub.ExtendibleHashTable.doubleDir t) :=
      GoodState.doubleDir hash hgs
    have hlt2 : hash k % 2 ^ (t.globalDepth + 1) < 2 * t.dir.length := by
      rw [hgs.dirLen]
      have hm := Nat.mod_lt (hash k) ((by positivity : 0 < 2 ^ (t.globalDepth + 1)))
      rw [pow_succ] at hm
      omega
    have htid : (BusTub.ExtendibleHashTable.doubleDir t).dirAt
        (IndexOf hash (BusTub.ExtendibleHashTable.doubleDir t) k) =
        t.dirAt (IndexOf hash t k) := by
      show (BusTub.ExtendibleHashTable.doubleDir t).dirAt
        (hash k % 2 ^ (t.globalDepth + 1)) = t.dirAt (IndexOf hash t k)
      rw [doubleDir_dirAt t _ hlt2, hgs.dirLen,
        mod_mod_pow t.globalDepth (t.globalDepth + 1) (Nat.le_succ _)]
      rfl
    have hlt' : (t.bAt (t.dirAt (IndexOf hash t k))).depth <
        (BusTub.ExtendibleHashTable.doubleDir t).globalDepth := by
      show _ < t.globalDepth + 1
      rw [hA]
      omega
    exact splitCore_kSlot hash hgs1 k htid rfl hlt' _ rfl
  · rw [if_neg hA]
    have hs : IndexOf hash t k < t.dir.length := by
      rw [hgs.dirLen]
      exact Nat.mod_lt _ (Nat.pos_pow_of_pos _ (by omega))
    have hlt' : (t.bAt (t.dirAt (IndexOf hash t k))).depth < t.globalDepth :=
      lt_of_le_of_ne (hgs.depthLe _ hs) hA
    exact splitCore_kSlot hash hgs k rfl rfl hlt' _ rfl

theorem splitStep_skeleton (hash : K → Nat) (t : ExtendibleHashTable K V) (k : K) :
    t.globalDepth ≤ (splitStep hash t k).globalDepth ∧
    (splitStep hash t k).numBuckets = t.numBuckets + 1 ∧
    t.dir.length ≤ (splitStep hash t k).dir.length := by
  by_cases h : (t.bAt (t.dirAt (IndexOf hash t k))).depth = t.globalDepth <;>
    simp [splitStep, h, updDir_length]

theorem insertLoop_mono (hash : K → Nat) (k : K) :
    ∀ (fuel : Nat) (t t' : ExtendibleHashTable K V),
      insertLoop hash k fuel t = some t' →
      t.globalDepth ≤ t'.globalDepth ∧ t.numBuckets ≤ t'.numBuckets ∧
      t.dir.length ≤ t'.dir.length := by
  intro fuel
  induction fuel with
  | zero =>
    intro t t' h
    unfold insertLoop at h
    split at h
    · cases h
    · cases h
      exact ⟨le_refl _, le_refl _, le_refl _⟩
  | succ n ih =>
    intro t t' h
    unfold insertLoop at h
    split at h
    · have h2 := ih (splitStep hash t k) t' h
      have h1 := splitStep_skeleton hash t k
      exact ⟨le_trans h1.1 h2.1, le_trans (by omega) h2.2.1, le_trans h1.2.2 h2.2.2⟩
    · cases h
      exact ⟨le_refl _, le_refl _, le_refl _⟩

theorem Insert_mono (hash : K → Nat) (fuel : Nat) (t t' : ExtendibleHashTable K V)
    (k : K) (v : V) (h : Insert hash fuel t k v = some t') :
    t.globalDepth ≤ t'.globalDepth ∧ t.numBuckets ≤ t'.numBuckets ∧
    t.dir.length ≤ t'.dir.length := by
  unfold Insert at h
  cases hlp : insertLoop hash k fuel t with
  | none => rw [hlp] at h; cases h
  | some t1 =>
    rw [hlp] at h
    cases h
    exact insertLoop_mono hash k fuel t t1 hlp

theorem runOp_mono (hash : K → Nat) (fuel : Nat) (t t' : ExtendibleHashTable K V)
    (op : Op K V) (h : runOp hash fuel t op = some t') :
    t.globalDepth ≤ t'.globalDepth ∧ t.numBuckets ≤ t'.numBuckets ∧
    t.dir.length ≤ t'.dir.length := by
  cases op with
  | ins k v => exact Insert_mono hash fuel t t' k v h
  | rem k =>
    cases h
    exact ⟨le_refl _, le_refl _, le_refl _⟩
  | find k =>
    cases h
    exact ⟨le_refl _, le_refl _, le_refl _⟩

/-- Running the split loop preserves the invariant and the entire `Find`
relation, and on success the bucket at the key's slot is no longer full. -/
theorem insertLoop_good (hash : K → Nat) (k : K) :
    ∀ (fuel : Nat) (t t' : ExtendibleHashTable K V), GoodState hash t →
      insertLoop hash k fuel t = some t' →
      GoodState hash t' ∧ (∀ k', Find hash t' k' = Find hash t k') ∧
      ¬ ((t'.bAt (t'.dirAt (IndexOf hash t' k))).isFull = true) := by
  intro fuel
  induction fuel with
  | zero =>
    intro t t' hgs h
    simp only [insertLoop] at h
    by_cases hfull : (t.bAt (t.dirAt (IndexOf hash t k))).isFull = true
    · rw [if_pos hfull] at h
      cases h
    · rw [if_neg hfull] at h
      cases h
      exact ⟨hgs, fun _ => rfl, hfull⟩
  | succ n ih =>
    intro t t' hgs h
    simp only [insertLoop] at h
    by_cases hfull : (t.bAt (t.dirAt (IndexOf hash t k))).isFull = true
    · rw [if_pos hfull] at h
      have hgs1 := splitStep_good hash k hgs
      have hrec := ih (splitStep hash t k) t' hgs1 h
      exact ⟨hrec.1, fun k' => (hrec.2.1 k').trans (Find_splitStep hash k hgs k'),
        hrec.2.2⟩
    · rw [if_neg hfull] at h
      cases h
      exact ⟨hgs, fun _ => rfl, hfull⟩

/-- In a well-formed table whose keys at the split key's slot all differ
from `hash k` in their low `N` bits, the bucket at `k`'s slot is empty
once its local depth reaches `N`. -/
theorem kBucket_empty (hash : K → Nat) (k : K) (N : Nat) {t : ExtendibleHashTable K V}
    (hgs : GoodState hash t)
    (hP : ∀ p ∈ (t.bAt (t.dirAt (IndexOf hash t k))).list,
      hash p.1 % 2 ^ N ≠ hash k % 2 ^ N)
    (hdep : N ≤ (t.bAt (t.dirAt (IndexOf hash t k))).depth) :
    (t.bAt (t.dirAt (IndexOf hash t k))).list = [] := by
  by_contra hne
  obtain ⟨p, hp⟩ := List.exists_mem_of_ne_nil _ hne
  have hs : IndexOf hash t k < t.dir.length := by
    rw [hgs.dirLen]
    exact Nat.mod_lt _ (Nat.pos_pow_of_pos _ (by omega))
  have hkh := hgs.keysHash _ hs p hp
  have hdle := hgs.depthLe _ hs
  have hslot : IndexOf hash t k % 2 ^ (t.bAt (t.dirAt (IndexOf hash t k))).depth
      = hash k % 2 ^ (t.bAt (t.dirAt (IndexOf hash t k))).depth :=
    mod_mod_pow _ _ hdle
  exact hP p hp (modPow_mono N _ hdep (hkh.trans hslot))

/-- Termination of the split loop: if every key stored at `k`'s slot
differs from `hash k` in its low `N` bits, then `N` more iterations
always suffice, because each split raises the local depth of `k`'s bucket
by one and the bucket must be empty (hence not full) by depth `N`. -/
theorem insertLoop_terminates (hash : K → Nat) (k : K) (N : Nat) :
    ∀ (m : Nat) (t : ExtendibleHashTable K V), GoodState hash t →
      (∀ p ∈ (t.bAt (t.dirAt (IndexOf hash t k))).list,
        hash p.1 % 2 ^ N ≠ hash k % 2 ^ N) →
      N ≤ (t.bAt (t.dirAt (IndexOf hash t k))).depth + m →
      ∃ t', insertLoop hash k m t = some t' := by
  intro m
  induction m with
  | zero =>
    intro t hgs hP hN
    refine ⟨t, ?_⟩
    have hs : IndexOf hash t k < t.dir.length := by
      rw [hgs.dirLen]
      exact Nat.mod_lt _ (Nat.pos_pow_of_pos _ (by omega))
    have hempty := kBucket_empty hash k N hgs hP (by omega)
    have hsz := hgs.sizeEq _ hs
    have hnf : ¬ ((t.bAt (t.dirAt (IndexOf hash t k))).isFull = true) := by
      simp only [Bucket.isFull, hempty, hsz, List.length_nil, decide_eq_true_eq]
      have := hgs.szPos
      omega
    simp only [insertLoop, if_neg hnf]
  | succ m ih =>
    intro t hgs hP hN
    by_cases hfull : (t.bAt (t.dirAt (IndexOf hash t k))).isFull = true
    · have hks := splitStep_kSlot hash k hgs
      have hrec := ih (splitStep hash t k) (splitStep_good hash k hgs)
        (fun p hp => hP p (hks.2 p hp))
        (by rw [hks.1]; omega)
      obtain ⟨t', ht'⟩ := hrec
      refine ⟨t', ?_⟩
      simp only [insertLoop, if_pos hfull]
      exact ht'
    · refine ⟨t, ?_⟩
      simp only [insertLoop, if_neg hfull]

theorem findVal_append_ne (k k'' : K) (v : V) (l : List (K × V)) (hne : k'' ≠ k) :
    findVal k'' (l ++ [(k, v)]) = findVal k'' l := by
  rw [findVal_append_one]
  have h' : ¬ (k = k'') := fun h => hne h.symm
  cases hfv : findVal k'' l <;> simp [Option.orElse, h']

/-- Specification of a successful `Insert`: the invariant is preserved,
`Find` on the inserted key returns the new value, and `Find` on every
other key is unchanged. -/
theorem Insert_spec (hash : K → Nat) (fuel : Nat) {t t' : ExtendibleHashTable K V}
    (hgs : GoodState hash t) (k : K) (v : V)
    (h : Insert hash fuel t k v = some t') :
    GoodState hash t' ∧ Find hash t' k = some v ∧
    (∀ k'', k'' ≠ k → Find hash t' k'' = Find hash t k'') := by
  unfold Insert at h
  cases hlp : insertLoop hash k fuel t with
  | none => rw [hlp] at h; cases h
  | some t1 =>
    rw [hlp] at h
    simp only [Option.map_some] at h
    obtain ⟨hgs1, hfind1, hnf⟩ := insertLoop_good hash k fuel t t1 hgs hlp
    have hs : IndexOf hash t1 k < t1.dir.length := by
      rw [hgs1.dirLen]
      exact Nat.mod_lt _ (Nat.pos_pow_of_pos _ (by omega))
    have hbid : t1.dirAt (IndexOf hash t1 k) < t1.buckets.length := hgs1.dirValid _ hs
    cases h
    set slot := IndexOf hash t1 k with hslot
    set bid := t1.dirAt slot with hbidDef
    set b := t1.bAt bid with hb
    set b' :=
      (if (findVal k b.list).isSome then { b with list := overwriteFirst k v b.list }
       else (Bucket.insert k v b).2) with hb'
    set t2 : ExtendibleHashTable K V := { t1 with buckets := t1.buckets.set bid b' } with ht2
    have hlistChar :
        (b'.list = overwriteFirst k v b.list ∧ (findVal k b.list).isSome = true) ∨
        (b'.list = b.list ++ [(k, v)] ∧ findVal k b.list = none) := by
      by_cases hpres : (findVal k b.list).isSome = true
      · left
        constructor
        · rw [hb', if_pos hpres]
        · exact hpres
      · right
        have hnone : findVal k b.list = none := by
          cases hx : findVal k b.list
          · rfl
          · rw [hx] at hpres; simp at hpres
        constructor
        · rw [hb', if_neg hpres]
          unfold Bucket.insert
          rw [hnone]
          simp only [Option.isSome_none, Bool.false_eq_true, if_false, if_neg hnf]
        · exact hnone
    have hdepthEq : b'.depth = b.depth := by
      rw [hb']
      by_cases hpres : (findVal k b.list).isSome = true
      · rw [if_pos hpres]
      · rw [if_neg hpres]
        unfold Bucket.insert
        by_cases h1 : (findVal k b.list).isSome = true
        · rw [if_pos h1]
        · rw [if_neg h1]
          by_cases h2 : b.isFull = true
          · rw [if_pos h2]
          · rw [if_neg h2]
    have hsizeEq' : b'.size = b.size := by
      rw [hb']
      by_cases hpres : (findVal k b.list).isSome = true
      · rw [if_pos hpres]
      · rw [if_neg hpres]
        unfold Bucket.insert
        by_cases h1 : (findVal k b.list).isSome = true
        · rw [if_pos h1]
        · rw [if_neg h1]
          by_cases h2 : b.isFull = true
          · rw [if_pos h2]
          · rw [if_neg h2]
    have hdirAt2 : ∀ j, t2.dirAt j = t1.dirAt j := fun _ => rfl
    have hbAt2_eq : t2.bAt bid = b' := by
      show (t1.buckets.set bid b').getD bid _ = b'
      exact getD_set_self _ _ _ _ hbid
    have hbAt2_ne : ∀ x, x ≠ bid → t2.bAt x = t1.bAt x := by
      intro x hx
      show (t1.buckets.set bid b').getD x _ = t1.bAt x
      exact getD_set_ne _ _ _ _ _ (fun hh => hx hh.symm)
    have hdepth2 : ∀ x, (t2.bAt x).depth = (t1.bAt x).depth := by
      intro x
      by_cases hx : x = bid
      · subst hx
        rw [hbAt2_eq, hdepthEq, hb]
      · rw [hbAt2_ne x hx]
    have hsize2 : ∀ x, (t2.bAt x).size = (t1.bAt x).size := by
      intro x
      by_cases hx : x = bid
      · subst hx
        rw [hbAt2_eq, hsizeEq', hb]
      · rw [hbAt2_ne x hx]
    have hkeys2 : ∀ x, ((t2.bAt x).list.map Prod.fst) = ((t1.bAt x).list.map Prod.fst) ∨
        (x = bid ∧ (t2.bAt x).list = b.list ++ [(k, v)] ∧ findVal k b.list = none) := by
      intro x
      by_cases hx : x = bid
      · subst hx
        rcases hlistChar with ⟨hl, _⟩ | ⟨hl, hn⟩
        · left
          rw [hbAt2_eq, hl, overwriteFirst_keys, hb]
        · right
          exact ⟨rfl, by rw [hbAt2_eq, hl], hn⟩
      · left
        rw [hbAt2_ne x hx]
    -- the invariant for the updated table
    have hgs2 : GoodState hash t2 := by
      have hsame : ∀ j, j < t1.dir.length →
          (t1.dirAt j = bid → t2.bAt (t2.dirAt j) = b') ∧
          (t1.dirAt j ≠ bid → t2.bAt (t2.dirAt j) = t1.bAt (t1.dirAt j)) := by
        intro j _
        constructor
        · intro hj
          rw [hdirAt2, hj, hbAt2_eq]
        · intro hj
          rw [hdirAt2, hbAt2_ne _ hj]
      refine ⟨hgs1.szPos, hgs1.dirLen, ?_, ?_, ?_, ?_, ?_, ?_, ?_, ?_⟩
      · intro i hi
        show t1.dirAt i < (t1.buckets.set bid b').length
        rw [List.length_set]
        exact hgs1.dirValid i hi
      · intro i hi
        rw [hdirAt2, hdepth2]
        exact hgs1.depthLe i hi
      · intro i hi j hj hagree
        rw [hdirAt2, hdepth2] at hagree
        rw [hdirAt2, hdirAt2]
        exact hgs1.cover i hi j hj hagree
      · intro i hi j hj heq
        rw [hdirAt2, hdirAt2] at heq
        rw [hdirAt2, hdepth2]
        exact hgs1.sep i hi j hj heq
      · intro i hi p hp
        rw [hdirAt2, hdepth2]
        by_cases hib : t1.dirAt i = bid
        · rw [(hsame i hi).1 hib] at hp
          rw [hib, ← hb]
          rcases hlistChar with ⟨hl, _⟩ | ⟨hl, _⟩
          · rw [hl] at hp
            have hkey := overwriteFirst_mem_keys hp
            obtain ⟨q, hq, hqk⟩ := List.mem_map.mp hkey
            have := hgs1.keysHash i hi q (by rw [hib, ← hb]; exact hq)
            rw [hib, ← hb] at this
            rw [← hqk]
            exact this
          · rw [hl] at hp
            rcases List.mem_append.mp hp with hold | hnew
            · have := hgs1.keysHash i hi p (by rw [hib, ← hb]; exact hold)
              rw [hib, ← hb] at this
              exact this
            · have hpkv : p = (k, v) := by simpa using hnew
              subst hpkv
              have hsep := hgs1.sep slot hs i hi (by rw [hib])
              have hdle := hgs1.depthLe slot hs
              have hk1 : hash k % 2 ^ (t1.bAt (t1.dirAt slot)).depth
                  = slot % 2 ^ (t1.bAt (t1.dirAt slot)).depth :=
                (mod_mod_pow _ _ hdle).symm
              rw [← hbidDef, ← hb] at hsep
              rw [← hbidDef, ← hb] at hk1
              exact hk1.trans hsep
        · rw [(hsame i hi).2 hib] at hp
          exact hgs1.keysHash i hi p hp
      · intro i hi
        by_cases hib : t1.dirAt i = bid
        · rw [hdirAt2]
          rcases hkeys2 (t1.dirAt i) with hk2 | ⟨_, hl, hn⟩
          · rw [hk2]
            exact hgs1.keysNodup i hi
          · rw [hl]
            have hnodup := hgs1.keysNodup i hi
            rw [hib, ← hb] at hnodup
            have hknotin : ∀ q ∈ b.list, q.1 ≠ k := findVal_eq_none.mp hn
            rw [List.map_append]
            rw [List.nodup_append]
            refine ⟨hnodup, by simp, ?_⟩
            intro a ha
            simp only [List.map_cons, List.map_nil, List.mem_singleton]
            intro hak
            obtain ⟨q, hq, hqa⟩ := List.mem_map.mp ha
            exact hknotin q hq (by rw [hqa, hak])
        · rw [hdirAt2, hbAt2_ne _ hib]
          exact hgs1.keysNodup i hi
      · intro i hi
        rw [hdirAt2, hsize2]
        show (t1.bAt (t1.dirAt i)).size = t1.bucketSize
        exact hgs1.sizeEq i hi
      · intro i hi
        rw [hdirAt2]
        by_cases hib : t1.dirAt i = bid
        · rw [hib, hbAt2_eq]
          rcases hlistChar with ⟨hl, _⟩ | ⟨hl, _⟩
          · rw [hl, overwriteFirst_length]
            have := hgs1.lenLe i hi
            rw [hib, ← hb] at this
            exact this
          · rw [hl]
            have hnotfull : ¬ (b.size ≤ b.list.length) := by
              intro hle2
              apply hnf
              simp [Bucket.isFull, hle2]
            have hsz := hgs1.sizeEq i hi
            rw [hib, ← hb] at hsz
            simp only [List.length_append, List.length_singleton]
            omega
        · rw [hbAt2_ne _ hib]
          exact hgs1.lenLe i hi
    refine ⟨hgs2, ?_, ?_⟩
    · show (t2.bAt (t2.dirAt (IndexOf hash t2 k))).find k = some v
      have hI2 : IndexOf hash t2 k = slot := rfl
      rw [hI2, hdirAt2, ← hbidDef, hbAt2_eq]
      show findVal k b'.list = some v
      rcases hlistChar with ⟨hl, hpres⟩ | ⟨hl, hn⟩
      · rw [hl]
        exact findVal_overwrite_self k v b.list hpres
      · rw [hl, findVal_append_one, hn]
        simp [Option.orElse]
    · intro k'' hne
      have hstep : Find hash t2 k'' = Find hash t1 k'' := by
        show (t2.bAt (t2.dirAt (IndexOf hash t2 k''))).find k''
          = (t1.bAt (t1.dirAt (IndexOf hash t1 k''))).find k''
        have hI2 : IndexOf hash t2 k'' = IndexOf hash t1 k'' := rfl
        rw [hI2, hdirAt2]
        by_cases hib : t1.dirAt (IndexOf hash t1 k'') = bid
        · rw [hib, hbAt2_eq]
          show findVal k'' b'.list = findVal k'' (t1.bAt bid).list
          rw [← hb]
          rcases hlistChar with ⟨hl, _⟩ | ⟨hl, _⟩
          · rw [hl]
            exact findVal_overwrite_ne k k'' v hne b.list
          · rw [hl]
            exact findVal_append_ne k k'' v b.list hne
        · rw [hbAt2_ne _ hib]
      exact hstep.trans (hfind1 k'')

/-- Specification of `Remove`: the invariant is preserved, `Find` on the
removed key returns `none` afterwards, and `Find` on every other key is
unchanged. -/
theorem Remove_spec (hash : K → Nat) {t1 : ExtendibleHashTable K V}
    (hgs1 : GoodState hash t1) (k : K) :
    GoodState hash (Remove hash t1 k).2 ∧
    Find hash (Remove hash t1 k).2 k = none ∧
    (∀ k'', k'' ≠ k → Find hash (Remove hash t1 k).2 k'' = Find hash t1 k'') := by
  have hs : IndexOf hash t1 k < t1.dir.length := by
    rw [hgs1.dirLen]
    exact Nat.mod_lt _ (Nat.pos_pow_of_pos _ (by omega))
  set slot := IndexOf hash t1 k with hslot
  set bid := t1.dirAt slot with hbidDef
  have hbid : bid < t1.buckets.length := hgs1.dirValid _ hs
  set b := t1.bAt bid with hb
  set b' : Bucket K V := { b with list := (removeFirst k b.list).2 } with hb'
  have hres : (Remove hash t1 k).2 = { t1 with buckets := t1.buckets.set bid b' } := rfl
  rw [hres]
  set t2 : ExtendibleHashTable K V := { t1 with buckets := t1.buckets.set bid b' } with ht2
  have hdirAt2 : ∀ j, t2.dirAt j = t1.dirAt j := fun _ => rfl
  have hbAt2_eq : t2.bAt bid = b' := by
    show (t1.buckets.set bid b').getD bid _ = b'
    exact getD_set_self _ _ _ _ hbid
  have hbAt2_ne : ∀ x, x ≠ bid → t2.bAt x = t1.bAt x := by
    intro x hx
    show (t1.buckets.set bid b').getD x _ = t1.bAt x
    exact getD_set_ne _ _ _ _ _ (fun hh => hx hh.symm)
  have hdepth2 : ∀ x, (t2.bAt x).depth = (t1.bAt x).depth := by
    intro x
    by_cases hx : x = bid
    · subst hx
      rw [hbAt2_eq]
    · rw [hbAt2_ne x hx]
  have hsize2 : ∀ x, (t2.bAt x).size = (t1.bAt x).size := by
    intro x
    by_cases hx : x = bid
    · subst hx
      rw [hbAt2_eq]
    · rw [hbAt2_ne x hx]
  have hsub : b'.list.Sublist b.list := removeFirst_sublist k b.list
  have hnodupb : (b.list.map Prod.fst).Nodup := by
    have h := hgs1.keysNodup slot hs
    rwa [← hbidDef, ← hb] at h
  have hgs2 : GoodState hash t2 := by
    refine ⟨hgs1.szPos, hgs1.dirLen, ?_, ?_, ?_, ?_, ?_, ?_, ?_, ?_⟩
    · intro i hi
      show t1.dirAt i < (t1.buckets.set bid b').length
      rw [List.length_set]
      exact hgs1.dirValid i hi
    · intro i hi
      rw [hdirAt2, hdepth2]
      exact hgs1.depthLe i hi
    · intro i hi j hj hagree
      rw [hdirAt2, hdepth2] at hagree
      rw [hdirAt2, hdirAt2]
      exact hgs1.cover i hi j hj hagree
    · intro i hi j hj heq
      rw [hdirAt2, hdirAt2] at heq
      rw [hdirAt2, hdepth2]
      exact hgs1.sep i hi j hj heq
    · intro i hi p hp
      rw [hdirAt2, hdepth2]
      by_cases hib : t1.dirAt i = bid
      · rw [hdirAt2, hib, hbAt2_eq] at hp
        have hpb : p ∈ b.list := hsub.subset hp
        have := hgs1.keysHash i hi p (by rw [hib, ← hb]; exact hpb)
        exact this
      · rw [hdirAt2, hbAt2_ne _ hib] at hp
        exact hgs1.keysHash i hi p hp
    · intro i hi
      rw [hdirAt2]
      by_cases hib : t1.dirAt i = bid
      · rw [hib, hbAt2_eq]
        exact hnodupb.sublist (hsub.map Prod.fst)
      · rw [hbAt2_ne _ hib]
        exact hgs1.keysNodup i hi
    · intro i hi
      rw [hdirAt2, hsize2]
      show (t1.bAt (t1.dirAt i)).size = t1.bucketSize
      exact hgs1.sizeEq i hi
    · intro i hi
      rw [hdirAt2]
      by_cases hib : t1.dirAt i = bid
      · rw [hib, hbAt2_eq]
        have hlenb : b.list.length ≤ t1.bucketSize := by
          have h := hgs1.lenLe i hi
          rwa [hib, ← hb] at h
        exact le_trans hsub.length_le hlenb
      · rw [hbAt2_ne _ hib]
        exact hgs1.lenLe i hi
  refine ⟨hgs2, ?_, ?_⟩
  · show (t2.bAt (t2.dirAt (IndexOf hash t2 k))).find k = none
    have hI2 : IndexOf hash t2 k = slot := rfl
    rw [hI2, hdirAt2, ← hbidDef, hbAt2_eq]
    show findVal k (removeFirst k b.list).2 = none
    exact findVal_removeFirst_self k b.list hnodupb
  · intro k'' hne
    show (t2.bAt (t2.dirAt (IndexOf hash t2 k''))).find k''
      = (t1.bAt (t1.dirAt (IndexOf hash t1 k''))).find k''
    have hI2 : IndexOf hash t2 k'' = IndexOf hash t1 k'' := rfl
    rw [hI2, hdirAt2]
    by_cases hib : t1.dirAt (IndexOf hash t1 k'') = bid
    · rw [hib, hbAt2_eq]
      show findVal k'' (removeFirst k b.list).2 = findVal k'' (t1.bAt bid).list
      rw [← hb]
      exact findVal_removeFirst_ne k k'' hne b.list
    · rw [hbAt2_ne _ hib]

/-- One operation preserves the invariant and acts on `Find` exactly as
the one-step history specification `specStep` prescribes. -/
theorem runOp_spec (hash : K → Nat) (fuel : Nat) {t t' : ExtendibleHashTable K V}
    (hgs : GoodState hash t) (op : Op K V) (h : runOp hash fuel t op = some t') :
    GoodState hash t' ∧ ∀ k, Find hash t' k = specStep k (Find hash t k) op := by
  cases op with
  | ins k0 v =>
    have hspec := Insert_spec hash fuel hgs k0 v h
    refine ⟨hspec.1, fun k => ?_⟩
    by_cases hk : k0 = k
    · subst hk
      simp only [specStep, if_pos rfl]
      exact hspec.2.1
    · simp only [specStep, if_neg hk]
      exact hspec.2.2 k (fun hh => hk hh.symm)
  | rem k0 =>
    cases h
    have hspec := Remove_spec hash hgs k0
    refine ⟨hspec.1, fun k => ?_⟩
    by_cases hk : k0 = k
    · subst hk
      simp only [specStep, if_pos rfl]
      exact hspec.2.1
    · simp only [specStep, if_neg hk]
      exact hspec.2.2 k (fun hh => hk hh.symm)
  | find k0 =>
    cases h
    exact ⟨hgs, fun k => rfl⟩

/-- A successful run of an operation sequence preserves the invariant
and refines the history specification pointwise. -/
theorem runOps_spec (hash : K → Nat) (fuel : Nat) :
    ∀ (ops : List (Op K V)) (t t' : ExtendibleHashTable K V), GoodState hash t →
      runOps hash fuel ops t = some t' →
      GoodState hash t' ∧ ∀ k, Find hash t' k = specFrom k (Find hash t k) ops := by
  intro ops
  induction ops with
  | nil =>
    intro t t' hgs h
    cases h
    exact ⟨hgs, fun _ => rfl⟩
  | cons op rest ih =>
    intro t t' hgs h
    unfold runOps at h
    cases hop : runOp hash fuel t op with
    | none => rw [hop] at h; cases h
    | some t1 =>
      rw [hop] at h
      have h1 := runOp_spec hash fuel hgs op hop
      have h2 := ih t1 t' h1.1 h
      refine ⟨h2.1, fun k => ?_⟩
      rw [h2.2 k, h1.2 k]
      rfl

theorem runOps_mono (hash : K → Nat) (fuel : Nat) :
    ∀ (ops : List (Op K V)) (t t' : ExtendibleHashTable K V),
      runOps hash fuel ops t = some t' →
      t.globalDepth ≤ t'.globalDepth ∧ t.numBuckets ≤ t'.numBuckets ∧
      t.dir.length ≤ t'.dir.length := by
  intro ops
  induction ops with
  | nil =>
    intro t t' h
    cases h
    exact ⟨le_refl _, le_refl _, le_refl _⟩
  | cons op rest ih =>
    intro t t' h
    unfold runOps at h
    cases hop : runOp hash fuel t op with
    | none => rw [hop] at h; cases h
    | some t1 =>
      rw [hop] at h
      have h1 := runOp_mono hash fuel t t1 op hop
      have h2 := ih t1 t' h
      exact ⟨le_trans h1.1 h2.1, le_trans h1.2.1 h2.2.1, le_trans h1.2.2 h2.2.2⟩

end ExtendibleHashTable

/-!
Buffer pool manager (`buffer_pool_manager_instance.cpp`).  A frame
(`Page` in the source) carries its page id (`page_id_t`, an `int`, with
`INVALID_PAGE_ID = -1` as sentinel), pin count, dirty flag, and its byte
buffer, modelled as an opaque `Nat` content token.  Calls into the disk
manager are recorded in an append-only trace.  The page table is the
extendible hash table above at `page_id → frame_id`; frame ids produced
by the pool are always in `[0, pool_size)`, so they are stored as `Nat`.
-/

/-- A buffer-pool frame: the `Page` object `pages_[i]`. -/
structure Frame where
  pageId : Int
  pinCount : Nat
  isDirty : Bool
  data : Nat
deriving DecidableEq

/-- The freshly constructed `Page`: invalid page id, unpinned, clean. -/
def emptyFrame : Frame := { pageId := -1, pinCount := 0, isDirty := false, data := 0 }

/-- One call into the disk manager, recorded in order. -/
inductive DiskOp where
  | write (pageId : Int) (data : Nat)
  | readPage (pageId : Int)
  | deallocate (pageId : Int)
deriving DecidableEq

/-- Modelled from the spec: the LRU-K replacer's per-frame record (its
implementation `lru_k_replacer.cpp` is not under `src/`): "a bounded
history of up to K most recent access timestamps, and an evictable
flag". -/
structure ReplacerEntry where
  history : List Nat
  evictable : Bool
deriving DecidableEq

/-- Modelled from the spec: the LRU-K replacer state — K, the monotone
timestamp counter, and one entry per tracked frame. -/
structure LRUKReplacer where
  k : Nat
  counterTs : Nat
  entries : List (Nat × ReplacerEntry)
deriving DecidableEq

/-- Modelled from the spec: `SetEvictable(frame_id, set_evictable)`
"toggles the flag" of the frame's entry. -/
def LRUKReplacer.setEvictable (r : LRUKReplacer) (fid : Nat) (b : Bool) : LRUKReplacer :=
  { r with
    entries := r.entries.map fun e => if e.1 = fid then (e.1, { e.2 with evictable := b }) else e }

/-- Modelled from the spec: `Remove(frame_id)` "forcibly drops the
frame's history; fails if frame is present but not evictable" — the entry
is dropped exactly when it is evictable. -/
def LRUKReplacer.removeFrame (r : LRUKReplacer) (fid : Nat) : LRUKReplacer :=
  { r with entries := r.entries.filter fun e => !(decide (e.1 = fid) && e.2.evictable) }

/-- The frame's entry, if the replacer is tracking it. -/
def LRUKReplacer.entryOf (r : LRUKReplacer) (fid : Nat) : Option ReplacerEntry :=
  findVal fid r.entries

/-- The buffer pool state: `pool_size_`, the frame array `pages_`, the
page table, the replacer, the free list, `next_page_id_`, and the trace
of disk-manager calls made so far. -/
structure BufferPoolManagerInstance where
  poolSize : Nat
  pages : List Frame
  pageTable : ExtendibleHashTable Int Nat
  replacer : LRUKReplacer
  freeList : List Nat
  nextPageId : Int
  diskTrace : List DiskOp
deriving DecidableEq

namespace BufferPoolManagerInstance

/-- The constructor: it builds the frame array, page table, replacer and
free list, and then unconditionally throws `NotImplementedException`.
`bucketSize` stands for the header constant `bucket_size_` (the header is
not under `src/`). -/
def mk? (hash : Int → Nat) (poolSize bucketSize replacerK : Nat) :
    Except String BufferPoolManagerInstance :=
  let s : BufferPoolManagerInstance :=
    { poolSize := poolSize
      pages := List.replicate poolSize emptyFrame
      pageTable := ExtendibleHashTable.new Int Nat bucketSize
      replacer := { k := replacerK, counterTs := 0, entries := [] }
      freeList := List.range poolSize
      nextPageId := 0
      diskTrace := [] }
  let _ := hash
  let _ := s
  Except.error "NotImplementedException: BufferPoolManager is not implemented yet."

/-- `UnpinPgImp(page_id, is_dirty)`: fail when the page is not cached or
its pin count is already zero; otherwise decrement the pin count, OR the
dirty flag, and mark the frame evictable when the count reaches zero. -/
def UnpinPgImp (hash : Int → Nat) (s : BufferPoolManagerInstance) (pageId : Int)
    (dirtyArg : Bool) : Bool × BufferPoolManagerInstance :=
  match ExtendibleHashTable.Find hash s.pageTable pageId with
  | none => (false, s)
  | some fid =>
    let f := s.pages.getD fid emptyFrame
    if f.pinCount = 0 then (false, s)
    else
      let f' := { f with pinCount := f.pinCount - 1, isDirty := f.isDirty || dirtyArg }
      let s' := { s with pages := s.pages.set fid f' }
      if f'.pinCount = 0 then (true, { s' with replacer := s'.replacer.setEvictable fid true })
      else (true, s')

/-- `FlushPgImp(page_id)`: write the frame back unconditionally and clear
its dirty flag (after an `assert(page_id != INVALID_PAGE_ID)` that we
record as a precondition-free model of the in-range path). -/
def FlushPgImp (hash : Int → Nat) (s : BufferPoolManagerInstance) (pageId : Int) :
    Bool × BufferPoolManagerInstance :=
  match ExtendibleHashTable.Find hash s.pageTable pageId with
  | none => (false, s)
  | some fid =>
    let f := s.pages.getD fid emptyFrame
    (true,
      { s with
        diskTrace := s.diskTrace ++ [DiskOp.write f.pageId f.data]
        pages := s.pages.set fid { f with isDirty := false } })

/-- The body of `FlushAllPgsImp`'s `for` loop over frame indices: when
the frame's current page id is in the page table, write the frame back
and then execute the source's `pages_->is_dirty_ = false;`, which clears
the dirty flag of frame 0 (`pages_` decays to `&pages_[0]`), not of the
iterated frame. -/
def flushAllGo (hash : Int → Nat) :
    List Nat → BufferPoolManagerInstance → BufferPoolManagerInstance
  | [], s => s
  | i :: rest, s =>
    let f := s.pages.getD i emptyFrame
    let s' :=
      if (ExtendibleHashTable.Find hash s.pageTable f.pageId).isSome then
        { s with
          diskTrace := s.diskTrace ++ [DiskOp.write f.pageId f.data]
          pages := s.pages.set 0 { s.pages.getD 0 emptyFrame with isDirty := false } }
      else s
    flushAllGo hash rest s'

/-- `FlushAllPgsImp`: iterate the loop body over `0 .. pool_size_ - 1`. -/
def FlushAllPgsImp (hash : Int → Nat) (s : BufferPoolManagerInstance) :
    BufferPoolManagerInstance :=
  flushAllGo hash (List.range s.poolSize) s

/-- `DeletePgImp(page_id)`: the source calls `DeallocatePage(page_id)`
first (modelled from the spec as informing the disk manager), returns
true when the page is not cached, false when it is pinned; otherwise it
writes the frame back when dirty (executing `pages_->is_dirty_ = false;`,
which clears frame 0's flag), removes the frame from the replacer,
appends it to the free list and removes the page from the table.  The
source resets no frame metadata. -/
def DeletePgImp (hash : Int → Nat) (s : BufferPoolManagerInstance) (pageId : Int) :
    Bool × BufferPoolManagerInstance :=
  let s0 := { s with diskTrace := s.diskTrace ++ [DiskOp.deallocate pageId] }
  match ExtendibleHashTable.Find hash s0.pageTable pageId with
  | none => (true, s0)
  | some fid =>
    if 0 < (s0.pages.getD fid emptyFrame).pinCount then (false, s0)
    else
      let f := s0.pages.getD fid emptyFrame
      let s1 :=
        if f.isDirty then
          { s0 with
            diskTrace := s0.diskTrace ++ [DiskOp.write f.pageId f.data]
            pages := s0.pages.set 0 { s0.pages.getD 0 emptyFrame with isDirty := false } }
        else s0
      (true,
        { s1 with
          replacer := s1.replacer.removeFrame fid
          freeList := s1.freeList ++ [fid]
          pageTable := (ExtendibleHashTable.Remove hash s1.pageTable pageId).2 })

end BufferPoolManagerInstance

/-!  Concrete states used as inputs of witnesses and counterexamples.  -/

/-- `std::hash` for `int` page ids, instantiated concretely for witness
states (any function works; the theorems quantify over it). -/
def intHash : Int → Nat := fun i => i.natAbs

/-- Identity hash on naturals, for concrete hash-table runs. -/
def natHash : Nat → Nat := fun n => n

/-- A page table caching page 5 at frame 0. -/
def tableA : ExtendibleHashTable Int Nat :=
  { globalDepth := 0, bucketSize := 4, numBuckets := 1,
    buckets := [{ size := 4, depth := 0, list := [(5, 0)] }], dir := [0] }

/-- A pool state with page 5 pinned once at frame 0. -/
def poolA : BufferPoolManagerInstance :=
  { poolSize := 1
    pages := [{ pageId := 5, pinCount := 1, isDirty := false, data := 7 }]
    pageTable := tableA
    replacer := { k := 2, counterTs := 1, entries := [(0, { history := [0], evictable := false })] }
    freeList := []
    nextPageId := 6
    diskTrace := [] }

/-- A page table caching page 1 at frame 0 and page 5 at frame 1. -/
def tableB : ExtendibleHashTable Int Nat :=
  { globalDepth := 0, bucketSize := 4, numBuckets := 1,
    buckets := [{ size := 4, depth := 0, list := [(1, 0), (5, 1)] }], dir := [0] }

/-- A pool state where frame 0 holds page 1 (pinned, dirty) and frame 1
holds page 5 (unpinned, dirty, evictable). -/
def poolB : BufferPoolManagerInstance :=
  { poolSize := 2
    pages := [{ pageId := 1, pinCount := 1, isDirty := true, data := 10 },
              { pageId := 5, pinCount := 0, isDirty := true, data := 20 }]
    pageTable := tableB
    replacer := { k := 2, counterTs := 2,
                  entries := [(0, { history := [0], evictable := false }),
                              (1, { history := [1], evictable := true })] }
    freeList := []
    nextPageId := 6
    diskTrace := [] }

/-- A pool state where frames 0 and 1 hold pages 1 and 5, both cached,
unpinned and dirty. -/
def poolC : BufferPoolManagerInstance :=
  { poolSize := 2
    pages := [{ pageId := 1, pinCount := 0, isDirty := true, data := 10 },
              { pageId := 5, pinCount := 0, isDirty := true, data := 20 }]
    pageTable := tableB
    replacer := { k := 2, counterTs := 2,
                  entries := [(0, { history := [0], evictable := true }),
                              (1, { history := [1], evictable := true })] }
    freeList := []
    nextPageId := 6
    diskTrace := [] }

/-!  ## Claims about the buffer pool manager  -/

/-- C9: constructing a `BufferPoolManagerInstance` always raises
`NotImplementedException`, for every pool size, bucket size and
`replacer_k`; hence no public operation is ever reachable on a
successfully constructed instance. -/
theorem claim_C9_constructor_always_throws (hash : Int → Nat)
    (poolSize bucketSize replacerK : Nat) :
    BufferPoolManagerInstance.mk? hash poolSize bucketSize replacerK =
      Except.error "NotImplementedException: BufferPoolManager is not implemented yet." :=
  rfl

/-- C3: `UnpinPage` returns false and changes nothing when the page is
not in the index or the pin count is 0; otherwise it decrements the pin
count, ORs `is_dirty` into the dirty flag (never clearing a set flag),
sets the frame evictable exactly when the pin count reaches 0, and
returns true. -/
theorem claim_C3_unpin_semantics (hash : Int → Nat) (s : BufferPoolManagerInstance)
    (pid : Int) (d : Bool) :
    (ExtendibleHashTable.Find hash s.pageTable pid = none →
      BufferPoolManagerInstance.UnpinPgImp hash s pid d = (false, s)) ∧
    (∀ fid, ExtendibleHashTable.Find hash s.pageTable pid = some fid →
      ((s.pages.getD fid emptyFrame).pinCount = 0 →
        BufferPoolManagerInstance.UnpinPgImp hash s pid d = (false, s)) ∧
      (∀ n, (s.pages.getD fid emptyFrame).pinCount = n + 1 →
        BufferPoolManagerInstance.UnpinPgImp hash s pid d =
          (true,
            { s with
              pages := s.pages.set fid
                { s.pages.getD fid emptyFrame with
                  pinCount := n
                  isDirty := (s.pages.getD fid emptyFrame).isDirty || d }
              replacer :=
                if n = 0 then s.replacer.setEvictable fid true else s.replacer }))) := by
  refine ⟨fun hnone => ?_, fun fid hsome => ⟨fun hzero => ?_, fun n hpin => ?_⟩⟩
  · simp only [BufferPoolManagerInstance.UnpinPgImp, hnone]
  · simp only [BufferPoolManagerInstance.UnpinPgImp, hsome, hzero, if_pos]
  · simp only [BufferPoolManagerInstance.UnpinPgImp, hsome, hpin, Nat.add_sub_cancel]
    rw [if_neg (Nat.succ_ne_zero n)]
    by_cases hn : n = 0
    · simp only [hn, if_pos, ite_true]
    · rw [if_neg hn, if_neg hn]

/-- Witness for C3: unpinning page 5 of `poolA` (pin count 1, clean) with
`is_dirty = true` succeeds, drops the pin count to 0, sets the dirty flag
and marks frame 0 evictable. -/
theorem claim_C3_witness :
    BufferPoolManagerInstance.UnpinPgImp intHash poolA 5 true =
      (true,
        { poolA with
          pages := poolA.pages.set 0
            { poolA.pages.getD 0 emptyFrame with
              pinCount := 0
              isDirty := (poolA.pages.getD 0 emptyFrame).isDirty || true }
          replacer :=
            if 0 = 0 then poolA.replacer.setEvictable 0 true else poolA.replacer }) :=
  ((claim_C3_unpin_semantics intHash poolA 5 true).2 0 (by decide)).2 0 (by decide)

/-- C5 (divergence witness): deleting the pinned page 5 of `poolA`
returns false, yet the disk-manager deallocation of page id 5 has already
been issued, and that is the only state change. -/
theorem claim_C5_pinned_delete_deallocates :
    BufferPoolManagerInstance.DeletePgImp intHash poolA 5 =
      (false, { poolA with diskTrace := [DiskOp.deallocate 5] }) := by
  decide

/-- C4 (divergence witness): deleting the cached, unpinned, dirty page 5
of `poolB` returns true, writes the page back, removes frame 1 from the
replacer, pushes it on the free list and removes page 5 from the index —
but the deleted frame's metadata is NOT reset (page id stays 5, dirty
stays true), while frame 0's dirty flag is cleared instead. -/
theorem claim_C4_no_metadata_reset :
    (BufferPoolManagerInstance.DeletePgImp intHash poolB 5).1 = true ∧
    (BufferPoolManagerInstance.DeletePgImp intHash poolB 5).2.pages.getD 1 emptyFrame =
      { pageId := 5, pinCount := 0, isDirty := true, data := 20 } ∧
    ((BufferPoolManagerInstance.DeletePgImp intHash poolB 5).2.pages.getD 0 emptyFrame).isDirty
      = false ∧
    (poolB.pages.getD 0 emptyFrame).isDirty = true ∧
    (BufferPoolManagerInstance.DeletePgImp intHash poolB 5).2.replacer.entryOf 1 = none ∧
    (BufferPoolManagerInstance.DeletePgImp intHash poolB 5).2.freeList = [1] ∧
    ExtendibleHashTable.Find intHash
      (BufferPoolManagerInstance.DeletePgImp intHash poolB 5).2.pageTable 5 = none ∧
    (BufferPoolManagerInstance.DeletePgImp intHash poolB 5).2.diskTrace =
      [DiskOp.deallocate 5, DiskOp.write 5 20] := by
  decide

/-- C6 (divergence witness): `FlushAllPages` on `poolC` (both frames
cached and dirty) writes both frames back, but clears only frame 0's
dirty flag — frame 1 stays dirty although it was flushed. -/
theorem claim_C6_flush_all_clears_only_frame_zero :
    (BufferPoolManagerInstance.FlushAllPgsImp intHash poolC).diskTrace =
      [DiskOp.write 1 10, DiskOp.write 5 20] ∧
    ((BufferPoolManagerInstance.FlushAllPgsImp intHash poolC).pages.getD 0 emptyFrame).isDirty
      = false ∧
    ((BufferPoolManagerInstance.FlushAllPgsImp intHash poolC).pages.getD 1 emptyFrame).isDirty
      = true := by
  decide

/-- C2 (divergence witness): from the empty table with bucket size 2,
insert keys 0 and 1, filling the single bucket; key 0 is now present with
value 100 and there is one bucket.  Re-inserting key 0 with value 555
does overwrite the value, but it first splits the bucket: the bucket
count rises to 2 and the global depth to 1, contradicting the claim that
an overwriting insert never splits and leaves `GetNumBuckets` unchanged. -/
theorem claim_C2_overwrite_splits_full_bucket :
    ∃ t t' : ExtendibleHashTable Nat Nat,
      ExtendibleHashTable.runOps natHash 1
        [ExtendibleHashTable.Op.ins 0 100, ExtendibleHashTable.Op.ins 1 101]
        (ExtendibleHashTable.new Nat Nat 2) = some t ∧
      ExtendibleHashTable.Find natHash t 0 = some 100 ∧
      ExtendibleHashTable.GetNumBuckets t = 1 ∧
      ExtendibleHashTable.Insert natHash 1 t 0 555 = some t' ∧
      ExtendibleHashTable.Find natHash t' 0 = some 555 ∧
      ExtendibleHashTable.GetNumBuckets t' = 2 ∧
      ExtendibleHashTable.GetGlobalDepth t' = 1 := by
  refine ⟨{ globalDepth := 0, bucketSize := 2, numBuckets := 1,
            buckets := [{ size := 2, depth := 0, list := [(0, 100), (1, 101)] }],
            dir := [0] },
          { globalDepth := 1, bucketSize := 2, numBuckets := 2,
            buckets := [{ size := 2, depth := 0, list := [(0, 100), (1, 101)] },
                        { size := 2, depth := 1, list := [(0, 555)] },
                        { size := 2, depth := 1, list := [(1, 101)] }],
            dir := [1, 2] }, ?_⟩
  decide

/-- C1: after any finite sequence of completed Insert/Remove operations
from construction, `Find(k)` returns exactly the value of the most recent
`Insert(k, v)` not followed by a `Remove(k)`, and nothing when `k` was
never inserted or was removed since (the history semantics `specLookup`). -/
theorem claim_C1_find_refines_history {K V : Type} [DecidableEq K] (hash : K → Nat)
    (sz fuel : Nat) (ops : List (ExtendibleHashTable.Op K V))
    (t : ExtendibleHashTable K V) (hsz : 1 ≤ sz)
    (h : ExtendibleHashTable.runOps hash fuel ops (ExtendibleHashTable.new K V sz) = some t)
    (k : K) :
    ExtendibleHashTable.Find hash t k = ExtendibleHashTable.specLookup k ops := by
  have hgs : ExtendibleHashTable.GoodState hash (ExtendibleHashTable.new K V sz) :=
    ExtendibleHashTable.goodState_new hash sz hsz
  have hspec := ExtendibleHashTable.runOps_spec hash fuel ops _ t hgs h
  have hk := hspec.2 k
  have hdir : ∀ i, (ExtendibleHashTable.new K V sz).dirAt i = 0 := by
    intro i
    cases i <;> rfl
  have hnone : ExtendibleHashTable.Find hash (ExtendibleHashTable.new K V sz) k = none := by
    unfold ExtendibleHashTable.Find
    rw [hdir]
    rfl
  rw [hnone] at hk
  exact hk

/-- Witness for C1: a five-operation run with two splits; the re-inserted
key reads back its last value and the removed key is absent, matching the
history specification. -/
theorem claim_C1_witness :
    ExtendibleHashTable.Find natHash
      { globalDepth := 2, bucketSize := 2, numBuckets := 3,
        buckets := [{ size := 2, depth := 0, list := [(0, 10), (1, 11)] },
                    { size := 2, depth := 1, list := [(0, 10), (2, 12)] },
                    { size := 2, depth := 1, list := [] },
                    { size := 2, depth := 2, list := [(0, 99)] },
                    { size := 2, depth := 2, list := [(2, 12)] }],
        dir := [3, 2, 4, 2] } 1 =
      ExtendibleHashTable.specLookup 1
        [ExtendibleHashTable.Op.ins 0 10, ExtendibleHashTable.Op.ins 1 11,
         ExtendibleHashTable.Op.ins 2 12, ExtendibleHashTable.Op.rem 1,
         ExtendibleHashTable.Op.ins 0 99] :=
  claim_C1_find_refines_history natHash 2 5
    [ExtendibleHashTable.Op.ins 0 10, ExtendibleHashTable.Op.ins 1 11,
     ExtendibleHashTable.Op.ins 2 12, ExtendibleHashTable.Op.rem 1,
     ExtendibleHashTable.Op.ins 0 99] _ (by decide) (by decide) 1

/-- C7: in every state reachable from construction, the directory length
is `2 ^ global_depth`, every referenced bucket's local depth is at most
the global depth, and two slots reference the same bucket iff they agree
in the bucket's low `local_depth` bits. -/
theorem claim_C7_directory_invariants {K V : Type} [DecidableEq K] (hash : K → Nat)
    (sz fuel : Nat) (ops : List (ExtendibleHashTable.Op K V))
    (t : ExtendibleHashTable K V) (hsz : 1 ≤ sz)
    (h : ExtendibleHashTable.runOps hash fuel ops (ExtendibleHashTable.new K V sz) = some t) :
    t.dir.length = 2 ^ ExtendibleHashTable.GetGlobalDepth t ∧
    (∀ i, i < t.dir.length →
      ExtendibleHashTable.GetLocalDepth t i ≤ ExtendibleHashTable.GetGlobalDepth t) ∧
    (∀ i, i < t.dir.length → ∀ j, j < t.dir.length →
      (t.dirAt i = t.dirAt j ↔
        i % 2 ^ ExtendibleHashTable.GetLocalDepth t i =
          j % 2 ^ ExtendibleHashTable.GetLocalDepth t i)) := by
  have hgs := (ExtendibleHashTable.runOps_spec hash fuel ops _ t
    (ExtendibleHashTable.goodState_new hash sz hsz) h).1
  refine ⟨hgs.dirLen, hgs.depthLe, fun i hi j hj => ⟨hgs.sep i hi j hj, fun hagree => ?_⟩⟩
  exact (hgs.cover i hi j hj hagree.symm).symm

/-- The concrete table reached by inserting keys 0, 1, 2 with bucket
size 2 (one split). -/
def tableC7 : ExtendibleHashTable Nat Nat :=
  { globalDepth := 1, bucketSize := 2, numBuckets := 2,
    buckets := [{ size := 2, depth := 0, list := [(0, 100), (1, 101)] },
                { size := 2, depth := 1, list := [(0, 100), (2, 102)] },
                { size := 2, depth := 1, list := [(1, 101)] }],
    dir := [1, 2] }

/-- Witness for C7: the invariants instantiated on `tableC7`. -/
theorem claim_C7_witness :
    tableC7.dir.length = 2 ^ ExtendibleHashTable.GetGlobalDepth tableC7 ∧
    (∀ i, i < tableC7.dir.length →
      ExtendibleHashTable.GetLocalDepth tableC7 i ≤
        ExtendibleHashTable.GetGlobalDepth tableC7) ∧
    (tableC7.dirAt 0 = tableC7.dirAt 1 ↔
      0 % 2 ^ ExtendibleHashTable.GetLocalDepth tableC7 0 =
        1 % 2 ^ ExtendibleHashTable.GetLocalDepth tableC7 0) := by
  have h := claim_C7_directory_invariants natHash 2 5
    [ExtendibleHashTable.Op.ins 0 100, ExtendibleHashTable.Op.ins 1 101,
     ExtendibleHashTable.Op.ins 2 102] tableC7 (by decide) (by decide)
  exact ⟨h.1, h.2.1, h.2.2 0 (by decide) 1 (by decide)⟩

/-- C8: from any well-formed state, inserting a key whose hash differs
from the hashes of all stored keys terminates: some finite number of
split iterations suffices. -/
theorem claim_C8_insert_terminates {K V : Type} [DecidableEq K] (hash : K → Nat)
    (t : ExtendibleHashTable K V) (k : K) (v : V)
    (hgs : ExtendibleHashTable.GoodState hash t)
    (hfresh : ∀ i, i < t.dir.length → ∀ p ∈ (t.bAt (t.dirAt i)).list,
      hash p.1 ≠ hash k) :
    ∃ fuel t', ExtendibleHashTable.Insert hash fuel t k v = some t' := by
  have hs : ExtendibleHashTable.IndexOf hash t k < t.dir.length := by
    rw [hgs.dirLen]
    exact Nat.mod_lt _ (Nat.pos_pow_of_pos _ (by omega))
  obtain ⟨N, hNs⟩ := exists_uniform_modPow_ne hash (hash k)
    (t.bAt (t.dirAt (ExtendibleHashTable.IndexOf hash t k))).list (hfresh _ hs)
  obtain ⟨t1, ht1⟩ := ExtendibleHashTable.insertLoop_terminates hash k N N t hgs hNs
    (by omega)
  cases hI : ExtendibleHashTable.Insert hash N t k v with
  | none =>
    exfalso
    unfold ExtendibleHashTable.Insert at hI
    rw [ht1] at hI
    simp at hI
  | some t2 => exact ⟨N, t2, hI⟩

/-- Witness for C8: inserting key 0 into a state whose single bucket
(capacity 1) is full with key 1 terminates, although it must split. -/
theorem claim_C8_witness :
    ∃ fuel t', ExtendibleHashTable.Insert natHash fuel
      ({ globalDepth := 0, bucketSize := 1, numBuckets := 1,
         buckets := [{ size := 1, depth := 0, list := [(1, 7)] }],
         dir := [0] } : ExtendibleHashTable Nat Nat) 0 5 = some t' :=
  claim_C8_insert_terminates natHash _ 0 5
    ⟨by decide, by decide, by decide, by decide, by decide, by decide, by decide,
     by decide, by decide, by decide⟩
    (by decide)

/-- C10: `Find` and `Remove` leave the global depth, the directory and
the bucket count unchanged, and over any operation sequence the global
depth, bucket count and directory length are non-decreasing (buckets are
never merged, the directory never shrinks). -/
theorem claim_C10_find_remove_frame {K V : Type} [DecidableEq K] (hash : K → Nat)
    (fuel : Nat) :
    (∀ (t : ExtendibleHashTable K V) (k : K),
      (ExtendibleHashTable.Remove hash t k).2.globalDepth = t.globalDepth ∧
      (ExtendibleHashTable.Remove hash t k).2.dir = t.dir ∧
      (ExtendibleHashTable.Remove hash t k).2.numBuckets = t.numBuckets) ∧
    (∀ (t : ExtendibleHashTable K V) (k : K),
      ExtendibleHashTable.runOp hash fuel t (ExtendibleHashTable.Op.find k) = some t) ∧
    (∀ (ops : List (ExtendibleHashTable.Op K V)) (t t' : ExtendibleHashTable K V),
      ExtendibleHashTable.runOps hash fuel ops t = some t' →
      t.globalDepth ≤ t'.globalDepth ∧ t.numBuckets ≤ t'.numBuckets ∧
      t.dir.length ≤ t'.dir.length) :=
  ⟨fun _ _ => ⟨rfl, rfl, rfl⟩, fun _ _ => rfl,
   fun ops t t' h => ExtendibleHashTable.runOps_mono hash fuel ops t t' h⟩

/-- Witness for C10: a concrete two-insert run from the empty table whose
global depth, bucket count and directory length all grew weakly. -/
theorem claim_C10_witness :
    (ExtendibleHashTable.new Nat Nat 1).globalDepth ≤ 1 ∧
    (ExtendibleHashTable.new Nat Nat 1).numBuckets ≤ 2 ∧
    (ExtendibleHashTable.new Nat Nat 1).dir.length ≤ 2 := by
  have h := (claim_C10_find_remove_frame natHash 1).2.2
    [ExtendibleHashTable.Op.ins 0 100, ExtendibleHashTable.Op.ins 1 101]
    (ExtendibleHashTable.new Nat Nat 1)
    { globalDepth := 1, bucketSize := 1, numBuckets := 2,
      buckets := [{ size := 1, depth := 0, list := [(0, 100)] },
                  { size := 1, depth := 1, list := [(0, 100)] },
                  { size := 1, depth := 1, list := [(1, 101)] }],
      dir := [1, 2] } (by decide)
  exact h

end BusTub
